import Mathlib

/-!
# Verification of porepy grid partitioning and projection operators

A shallow embedding of the two source modules

* `src/grids/partition.py` — cell partitioning of grids (METIS-based and
  structured Cartesian), plus the coarse-dimension search
  `determine_coarse_dimensions`;
* `src/src/porepy/numerics/ad/grid_operators.py` — subdomain and mortar
  projection operators built on `_subgrid_projections`.

Python exceptions are modelled by `Except PyError`; numpy integer arrays by
`List ℕ` / `List ℤ`; scipy sparse matrices by a `Mat` structure carrying the
shape and an entry function.  The floating-point `target ** (1/u)` root in
`determine_coarse_dimensions` is modelled by exact integer root extraction
(the spec's "real-valued ideal per-dimension size"), so floor and ceiling are
the mathematical ones.

Two helpers of the repository are not part of the given sources and are
modelled from the spec (their doc comments say so explicitly):
`utils.permutations.multinary_permutations` and
`pp.fvutils.expand_indices_nd`.
-/

/-- The Python exception kinds raised (or raisable) by the embedded code. -/
inductive PyError where
  | valueError
  | typeError
  | nameError
  | keyError
  | indexError
  | notImplementedError
  deriving Repr, DecidableEq

/-- A grid, as consumed read-only by both modules: a topological dimension,
cell and face counts, the per-dimension Cartesian extents (`g.cart_dims`,
used by the structured partitioner) and the signed cell-face incidence
matrix (`g.cell_faces`, shape `num_faces × num_cells`, stored densely as a
list of rows). -/
structure Grid where
  dim : ℕ
  num_cells : ℕ
  num_faces : ℕ
  cart_dims : List ℕ
  cell_faces : List (List ℤ)
  deriving Repr, DecidableEq

/-! ## Dense matrix helpers for the (dead) body of `partition_metis` -/

/-- Entrywise absolute value (`np.abs` on the matrix data). -/
def denseAbs (m : List (List ℤ)) : List (List ℤ) :=
  m.map (fun row => row.map (fun x => |x|))

/-- Row `i` of the transpose is column `i` of the input. -/
def denseTranspose (m : List (List ℤ)) : List (List ℤ) :=
  (List.range (m.headD []).length).map (fun j => m.map (fun row => row.getD j 0))

/-- Dense matrix product. -/
def denseMul (a b : List (List ℤ)) : List (List ℤ) :=
  a.map (fun row =>
    (List.range (b.headD []).length).map (fun j =>
      ((row.zip b).map (fun p => p.1 * p.2.getD j 0)).sum))

/-- `np.clip(·, 0, 1)` entrywise. -/
def denseClip01 (m : List (List ℤ)) : List (List ℤ) :=
  m.map (fun row => row.map (fun x => max 0 (min x 1)))

/-- Per-row lists of the column indices holding nonzero entries
(`c2c.getrow(i).indices`). -/
def adjacencyOf (m : List (List ℤ)) : List (List ℕ) :=
  m.map (fun row => (List.range row.length).filter (fun j => row.getD j 0 ≠ 0))

/-- CPython name resolution: reading a name that was never bound raises
`NameError`.  An unbound name is represented by `none`. -/
def pyName {α : Type} : Option α → Except PyError α
  | some v => .ok v
  | none => .error .nameError

/-- Embedding of `partition_metis` (partition.py lines 14-55).

Line 38 binds the copied incidence matrix to the name `cell_face`, but lines
41-49 read the name `cell_faces`, which is bound nowhere in the function, so
CPython raises `NameError` at line 41 before the adjacency graph is built and
before the external partitioner is invoked.  The remainder of the body is kept
as a faithful (unreachable) translation; note that line 51 passes the literal
`10` — not `num_part` — as the first argument of `pymetis.part_graph`, and
line 55 returns only the second component of the oracle's result. -/
def partition_metis (oracle : ℕ → List (List ℕ) → ℕ × List ℤ) (g : Grid)
    (num_part : ℕ) : Except PyError (List ℤ) := do
  let _cell_face := g.cell_faces
  let cell_faces ← pyName (α := List (List ℤ)) none
  let c2c := denseClip01 (denseMul (denseTranspose (denseAbs cell_faces)) (denseAbs cell_faces))
  let adjacency_list := adjacencyOf c2c
  let part := oracle 10 adjacency_list
  let _ := num_part
  .ok part.2

/-- A stub for the external `pymetis.part_graph` oracle: labels everything 0.
Used only to state closed theorems about `partition_metis`, whose body never
reaches the oracle. -/
def metisStub : ℕ → List (List ℕ) → ℕ × List ℤ :=
  fun _ adj => (0, adj.map (fun _ => 0))

/-- A concrete grid whose cell adjacency is a simple path on 4 cells:
4 cells in a row, 5 faces, signed incidence of a 1d Cartesian grid. -/
def pathGrid4 : Grid where
  dim := 1
  num_cells := 4
  num_faces := 5
  cart_dims := [4]
  cell_faces :=
    [[-1, 0, 0, 0],
     [1, -1, 0, 0],
     [0, 1, -1, 0],
     [0, 0, 1, -1],
     [0, 0, 0, 1]]

/-- C10: every call of `partition_metis` raises `NameError` (the body binds
`cell_face` but reads the undefined name `cell_faces`), for every oracle,
grid and requested part count; no partition vector is ever returned. -/
theorem partition_metis_always_nameError
    (oracle : ℕ → List (List ℕ) → ℕ × List ℤ) (g : Grid) (num_part : ℕ) :
    partition_metis oracle g num_part = .error .nameError := rfl

/-- C4 (code bug): on the concrete path-of-4-cells grid with 2 requested
parts, `partition_metis` raises `NameError` instead of consulting the oracle
and returning its label vector — and even its unreachable oracle call passes
the literal `10`, not `num_part`. -/
theorem partition_metis_path4_fails :
    partition_metis metisStub pathGrid4 2 = .error .nameError := rfl

/-! ## Structured partitioning (`partition_structured`, partition.py lines 58-132) -/

/-- Embedding of the per-dimension coarse-index computation of
`partition_structured` (lines 98-113) for dimension extent `f` and coarse
extent `c`.  `np.arange(0, f, step)` with the integer-valued step
`floor(f / c)` is the list of multiples of the step below `f`; numpy raises
on a zero step (and on `c = 0` the float division produces no usable step
either), modelled as `ValueError`.  The cumulative-sum-minus-one of the
increment indicator assigns fine index `x` the 0-based count of increment
positions at or before `x`. -/
def structuredAxisIndex (f c : ℕ) : Except PyError (List ℕ) :=
  if c = 0 then .error .valueError
  else
    let step := f / c
    if step = 0 then .error .valueError
    else
      let incr_ind0 := (List.range f).filter (fun x => x % step = 0)
      let incr_ind := if incr_ind0.length > c then incr_ind0.dropLast else incr_ind0
      .ok ((List.range f).map (fun x => incr_ind.countP (fun y => y ≤ x) - 1))

/-- Embedding of `partition_structured` (partition.py lines 58-132).

Lines 87-89: if neither `coarse_dims` nor `num_part` is given, `ValueError`.
Line 94 computes `np.floor(fine_dims / coarse_dims)` unconditionally: when
only `num_part` is given, `coarse_dims` is still `None` and numpy raises
`TypeError` (`determine_coarse_dimensions` is never called anywhere in this
function).  Lines 118-129 combine the per-dimension indices: in 2d the flat
cell `y * nx + x` gets label `ind0[x] + ind1[y] * coarse0`; in 3d (after the
`swapaxes` acrobatics) cell `z * ny * nx + y * nx + x` gets label
`ind0[x] + ind1[y] * c0 + ind2[z] * c0 * c1`; for any other `nd` the name
`glob_dims` is never bound and line 132 raises `NameError`. -/
def partition_structured (g : Grid) (coarse_dims : Option (List ℕ))
    (num_part : Option ℕ) : Except PyError (List ℕ) :=
  match coarse_dims, num_part with
  | none, none => .error .valueError
  | none, some _ => .error .typeError
  | some cd, _ => do
    let nd := g.dim
    let fine := g.cart_dims
    let ind ← (List.range nd).mapM
      (fun i => structuredAxisIndex (fine.getD i 0) (cd.getD i 0))
    match nd with
    | 2 =>
      .ok (((List.range (fine.getD 1 0)).map (fun y =>
        (List.range (fine.getD 0 0)).map (fun x =>
          (ind.getD 0 []).getD x 0 + (ind.getD 1 []).getD y 0 * cd.getD 0 0))).flatten)
    | 3 =>
      .ok (((List.range (fine.getD 2 0)).map (fun z =>
        ((List.range (fine.getD 1 0)).map (fun y =>
          (List.range (fine.getD 0 0)).map (fun x =>
            (ind.getD 0 []).getD x 0 + (ind.getD 1 []).getD y 0 * cd.getD 0 0
              + (ind.getD 2 []).getD z 0 * (cd.getD 0 0 * cd.getD 1 0)))).flatten)).flatten)
    | _ => .error .nameError

/-- A 4×4 Cartesian 2d grid (16 cells). -/
def grid4x4 : Grid where
  dim := 2
  num_cells := 16
  num_faces := 40
  cart_dims := [4, 4]
  cell_faces := []

/-- C7 (code bug): with neither `coarse_dims` nor `num_part`,
`partition_structured` raises `ValueError` as claimed; but with only
`num_part` given it raises `TypeError` at `np.floor(fine_dims / coarse_dims)`
(`coarse_dims` is `None`) instead of delegating to
`determine_coarse_dimensions` and returning a partition vector. -/
theorem partition_structured_num_part_fails :
    partition_structured grid4x4 none none = .error .valueError ∧
    partition_structured grid4x4 none (some 4) = .error .typeError := by
  exact ⟨rfl, rfl⟩

/-- C9: for fine extents `[4,4]` and explicit coarse extents `[2,2]`, the 16
cells map onto exactly 4 distinct labels, each used by exactly 4 cells, and
cell `(x, y)` (flat index `y * 4 + x`, x fastest-varying) gets label
`(x / 2) + (y / 2) * 2`, i.e. the fastest-varying fine axis maps to the
fastest-varying coarse axis. -/
theorem partition_structured_4x4_labels :
    partition_structured grid4x4 (some [2, 2]) none =
      .ok [0, 0, 1, 1, 0, 0, 1, 1, 2, 2, 3, 3, 2, 2, 3, 3] ∧
    ([0, 0, 1, 1, 0, 0, 1, 1, 2, 2, 3, 3, 2, 2, 3, 3] : List ℕ).dedup.length = 4 ∧
    ((List.range 4).all (fun lab =>
      ([0, 0, 1, 1, 0, 0, 1, 1, 2, 2, 3, 3, 2, 2, 3, 3] : List ℕ).count lab == 4)) = true ∧
    ((List.range 4).all (fun y => (List.range 4).all (fun x =>
      ([0, 0, 1, 1, 0, 0, 1, 1, 2, 2, 3, 3, 2, 2, 3, 3] : List ℕ).getD (y * 4 + x) 99
        == x / 2 + (y / 2) * 2))) = true := by
  exact ⟨rfl, by decide, by decide, by decide⟩

/-! ## Coarse-dimension search (`determine_coarse_dimensions`, partition.py lines 135-234) -/

/-- Modelled from the spec: `utils.permutations.multinary_permutations` (the
Permutation Enumerator, spec 4.1) is imported by partition.py but its source
is not part of the repository snapshot.  Per the spec it yields all
`base ^ n` tuples of length `n` over `{0, ..., base-1}` in a fixed
deterministic order with the most significant (first) position varying
slowest, i.e. lexicographic order. -/
def multinary_permutations (base : ℕ) : ℕ → List (List ℕ)
  | 0 => [[]]
  | n + 1 => (List.range base).flatMap
      (fun d => (multinary_permutations base n).map (fun t => d :: t))

/-- `size_now` of partition.py lines 219-221: position `i` of the permutation
selects row 0 (`s_low`) or row 1 (`s_high`) of `coarse_size` for dimension
`i`. -/
def sizeVec (s_low s_high : List ℕ) (perm : List ℕ) : List ℕ :=
  List.zipWith (fun bit lh => if bit = 0 then Prod.fst lh else Prod.snd lh)
    perm (s_low.zip s_high)

/-- The floor/ceiling combination search of partition.py lines 210-224: fold
over the enumerated permutations keeping `(dist, optimum)`.  Note the source
stores the SIGNED difference `target - size_now.prod()` in `dist` (line 223)
while the improvement test uses the absolute value (line 222). -/
def combinationSearch (target : ℤ) (perms : List (List ℕ))
    (s_low s_high : List ℕ) (dist0 : ℤ) (opt0 : List ℕ) : ℤ × List ℕ :=
  perms.foldl
    (fun st perm =>
      let size_now := sizeVec s_low s_high perm
      if |target - (size_now.prod : ℤ)| < st.1 then
        (target - (size_now.prod : ℤ), size_now)
      else st)
    (dist0, opt0)

/-- `⌊(T / P) ^ (1/u)⌋`: the greatest `m` with `m ^ u * P ≤ T` (exact-real
model of `np.floor(np.power(target_now, 1/u))` at line 190-191, where
`target_now = target / optimum.prod()`). -/
def kthRootFloor (T P u : ℕ) : ℕ :=
  Nat.findGreatest (fun m => m ^ u * P ≤ T) T

/-- `⌈(T / P) ^ (1/u)⌉` (exact-real model of `np.ceil(np.power(...))` at line
192): the floor when the root is exact, one more otherwise. -/
def kthRootCeil (T P u : ℕ) : ℕ :=
  let fl := kthRootFloor T P u
  if fl ^ u * P = T then fl else fl + 1

/-- One pass of the while-loop body of `determine_coarse_dimensions`
(partition.py lines 177-228), acting on `(optimum, found)`.

Lines 190-192: `s_low = max(1, ⌊s_num⌋)` elementwise (a single scalar),
`s_high = min(fine_size, ⌈s_num⌉)` elementwise.  Lines 195-199: dimensions
with `s_high == fine_size` and not yet found are resolved to `s_high`.
Line 203 tests `np.any(hit_ceil)` on the squeezed ARRAY OF INDICES returned
by `argwhere`: it is truthy exactly when some hit index is nonzero, so a
lone hit of dimension 0 does NOT restart the loop.  Lines 207-224 otherwise
fix the found dimensions and run the combination search with
`dist = fine_size.prod()` and the current `optimum` as fold state; line 228
then marks every dimension found. -/
def dcdIter (fine : List ℕ) (T : ℕ) (optimum : List ℕ) (found : List Bool) :
    List ℕ × List Bool :=
  let nd := fine.length
  let P := optimum.prod
  let u := nd - found.count true
  let fl := kthRootFloor T P u
  let ce := kthRootCeil T P u
  let sHigh := fun i : ℕ => min (fine.getD i 0) ce
  let hitB := fun i : ℕ => (sHigh i == fine.getD i 0) && !(found.getD i false)
  let optimum' := (List.range nd).map (fun i => if hitB i then sHigh i else optimum.getD i 0)
  let found' := (List.range nd).map (fun i => found.getD i false || hitB i)
  if ((List.range nd).filter hitB).any (fun i => i != 0) then
    (optimum', found')
  else
    let s_low := (List.range nd).map
      (fun i => if found'.getD i false then optimum'.getD i 0 else max 1 fl)
    let s_high := (List.range nd).map
      (fun i => if found'.getD i false then optimum'.getD i 0 else sHigh i)
    let res := combinationSearch (T : ℤ) (multinary_permutations 2 nd)
      s_low s_high ((fine.prod : ℕ) : ℤ) optimum'
    (res.2, List.replicate nd true)

/-- The while loop of partition.py line 177, returning the final
`(it_counter, optimum)`.  The loop runs while `¬ all(found) ∧ it ≤ nd`; the
fuel `nd + 1 - it_counter` is exactly the number of passes the guard can
still admit, so fuel exhaustion coincides with the guard failing. -/
def dcdLoop (fine : List ℕ) (T : ℕ) :
    ℕ → ℕ → List ℕ → List Bool → ℕ × List ℕ
  | 0, itc, optimum, _found => (itc, optimum)
  | fuel + 1, itc, optimum, found =>
    if found.all (fun b => b) ∨ itc > fine.length then (itc, optimum)
    else
      let st := dcdIter fine T optimum found
      dcdLoop fine T fuel (itc + 1) st.1 st.2

/-- Embedding of `determine_coarse_dimensions` (partition.py lines 135-234):
clamp the target to `[1, fine_size.prod()]` (line 163), run the loop from
all-ones `optimum` and all-false `found`, and raise `ValueError` if the loop
ran more than `nd` passes (lines 230-232). -/
def determine_coarse_dimensions (target : ℤ) (fine_size : List ℕ) :
    Except PyError (List ℕ) :=
  let T := (max 1 (min target ((fine_size.prod : ℕ) : ℤ))).toNat
  let nd := fine_size.length
  let res := dcdLoop fine_size T (nd + 1) 0 (List.replicate nd 1) (List.replicate nd false)
  if res.1 > nd then .error .valueError else .ok res.2

/-- The loop body as the spec (4.2 step 3) and the source's own comment
(lines 201-202, "If the ceiling was hit in some dimension, we have to start
over again") prescribe it: restart whenever the set of newly resolved
dimensions is NONEMPTY, rather than only when it contains a nonzero index.
This differs from `dcdIter` in the line marked `restart test` only; it is
the comparison point for the C6 code bug. -/
def dcdIterRestart (fine : List ℕ) (T : ℕ) (optimum : List ℕ) (found : List Bool) :
    List ℕ × List Bool :=
  let nd := fine.length
  let P := optimum.prod
  let u := nd - found.count true
  let fl := kthRootFloor T P u
  let ce := kthRootCeil T P u
  let sHigh := fun i : ℕ => min (fine.getD i 0) ce
  let hitB := fun i : ℕ => (sHigh i == fine.getD i 0) && !(found.getD i false)
  let optimum' := (List.range nd).map (fun i => if hitB i then sHigh i else optimum.getD i 0)
  let found' := (List.range nd).map (fun i => found.getD i false || hitB i)
  if ¬ ((List.range nd).filter hitB).isEmpty then  -- restart test
    (optimum', found')
  else
    let s_low := (List.range nd).map
      (fun i => if found'.getD i false then optimum'.getD i 0 else max 1 fl)
    let s_high := (List.range nd).map
      (fun i => if found'.getD i false then optimum'.getD i 0 else sHigh i)
    let res := combinationSearch (T : ℤ) (multinary_permutations 2 nd)
      s_low s_high ((fine.prod : ℕ) : ℤ) optimum'
    (res.2, List.replicate nd true)

/-- The loop, with the spec-prescribed restart test. -/
def dcdLoopRestart (fine : List ℕ) (T : ℕ) :
    ℕ → ℕ → List ℕ → List Bool → ℕ × List ℕ
  | 0, itc, optimum, _found => (itc, optimum)
  | fuel + 1, itc, optimum, found =>
    if found.all (fun b => b) ∨ itc > fine.length then (itc, optimum)
    else
      let st := dcdIterRestart fine T optimum found
      dcdLoopRestart fine T fuel (itc + 1) st.1 st.2

/-- `determine_coarse_dimensions` as the spec prescribes step 3: identical
except that any newly resolved dimension (dimension 0 included) restarts the
loop before the combination search. -/
def determine_coarse_dimensions_specRestart (target : ℤ) (fine_size : List ℕ) :
    Except PyError (List ℕ) :=
  let T := (max 1 (min target ((fine_size.prod : ℕ) : ℤ))).toNat
  let nd := fine_size.length
  let res := dcdLoopRestart fine_size T (nd + 1) 0 (List.replicate nd 1) (List.replicate nd false)
  if res.1 > nd then .error .valueError else .ok res.2

/-- C6 (code bug): for target 11 and fine extents `[2, 10]`, the first pass
resolves only dimension 0 (its ceiling candidate `⌈√11⌉ = 4` caps at the
fine extent 2), yet `np.any` of the squeezed index array `[0]` is false, so
the code does NOT restart: it runs the combination search in the same pass
with the stale root `√11` and returns `[2, 4]` (product 8).  Restarting as
the spec and the source's own comment prescribe recomputes the remaining
target `11 / 2` and returns `[2, 5]` (product 10, strictly closer to 11). -/
theorem dcd_dim0_no_restart :
    determine_coarse_dimensions 11 [2, 10] = .ok [2, 4] ∧
    determine_coarse_dimensions_specRestart 11 [2, 10] = .ok [2, 5] := by
  exact ⟨rfl, rfl⟩

/-! ## C8: bounds on the result of `determine_coarse_dimensions` -/

/-- Entry `i < n` of `(List.range n).map f`, read through `getD`. -/
lemma rangeMap_getD {α : Type} (f : ℕ → α) (n i : ℕ) (d : α) (h : i < n) :
    ((List.range n).map f).getD i d = f i := by
  rw [List.getD_eq_getElem _ _ (by simpa using h)]
  simp

/-- The ceiling root is at least 1 whenever the (clamped) target is. -/
lemma kthRootCeil_pos (T P u : ℕ) (hT : 1 ≤ T) : 1 ≤ kthRootCeil T P u := by
  by_cases h : (kthRootFloor T P u) ^ u * P = T
  · have h1 : kthRootCeil T P u = kthRootFloor T P u := by
      simp [kthRootCeil, h]
    rw [h1]
    rcases Nat.eq_zero_or_pos (kthRootFloor T P u) with h0 | h1'
    · exfalso
      rcases Nat.eq_zero_or_pos u with hu | hu
      · subst hu
        have hPT : P ≤ T := by simpa [h0] using h.le
        have : T ≤ kthRootFloor T P 0 :=
          Nat.le_findGreatest le_rfl (by simpa using hPT)
        omega
      · rw [h0, Nat.zero_pow hu] at h
        omega
    · exact h1'
  · have h1 : kthRootCeil T P u = kthRootFloor T P u + 1 := by
      simp [kthRootCeil, h]
    omega

/-- The floor root never exceeds the ceiling root. -/
lemma kthRootFloor_le_ceil (T P u : ℕ) : kthRootFloor T P u ≤ kthRootCeil T P u := by
  by_cases h : (kthRootFloor T P u) ^ u * P = T <;> simp [kthRootCeil, h]

/-- Length of `sizeVec`. -/
lemma sizeVec_length (lo hi p : List ℕ) :
    (sizeVec lo hi p).length = min p.length (min lo.length hi.length) := by
  simp [sizeVec]

/-- Entry `i` of `sizeVec` picks the low or high candidate of dimension `i`
according to bit `i` of the permutation. -/
lemma sizeVec_getD (lo hi p : List ℕ) (i : ℕ)
    (hp : i < p.length) (hlo : i < lo.length) (hhi : i < hi.length) :
    (sizeVec lo hi p).getD i 0 =
      if p.getD i 0 = 0 then lo.getD i 0 else hi.getD i 0 := by
  have hlen : i < (sizeVec lo hi p).length := by
    rw [sizeVec_length]; omega
  rw [List.getD_eq_getElem _ _ hlen, List.getD_eq_getElem _ _ hp,
    List.getD_eq_getElem _ _ hlo, List.getD_eq_getElem _ _ hhi]
  simp [sizeVec, List.getElem_zipWith, List.getElem_zip]

/-- The optimum returned by the combination-search fold is either the initial
optimum or the size vector of one of the enumerated permutations. -/
lemma combinationSearch_mem (T : ℤ) (lo hi : List ℕ) :
    ∀ (perms : List (List ℕ)) (d0 : ℤ) (o0 : List ℕ),
      (combinationSearch T perms lo hi d0 o0).2 = o0 ∨
      ∃ p ∈ perms, (combinationSearch T perms lo hi d0 o0).2 = sizeVec lo hi p := by
  intro perms
  induction perms with
  | nil => intro d0 o0; left; rfl
  | cons p ps ih =>
    intro d0 o0
    have hrw : ∀ st : ℤ × List ℕ, combinationSearch T (p :: ps) lo hi st.1 st.2 =
        combinationSearch T ps lo hi
          (if |T - ((sizeVec lo hi p).prod : ℤ)| < st.1 then
            (T - ((sizeVec lo hi p).prod : ℤ), sizeVec lo hi p) else st).1
          (if |T - ((sizeVec lo hi p).prod : ℤ)| < st.1 then
            (T - ((sizeVec lo hi p).prod : ℤ), sizeVec lo hi p) else st).2 := by
      intro st
      simp only [combinationSearch, List.foldl_cons]
    rw [hrw (d0, o0)]
    by_cases hc : |T - ((sizeVec lo hi p).prod : ℤ)| < d0
    · simp only [hc, if_pos]
      rcases ih (T - ((sizeVec lo hi p).prod : ℤ)) (sizeVec lo hi p) with h | ⟨q, hq, h⟩
      · right; exact ⟨p, List.mem_cons_self _ _, h⟩
      · right; exact ⟨q, List.mem_cons_of_mem _ hq, h⟩
    · simp only [hc, if_neg, if_false]
      rcases ih d0 o0 with h | ⟨q, hq, h⟩
      · left; exact h
      · right; exact ⟨q, List.mem_cons_of_mem _ hq, h⟩

/-- Every tuple enumerated by `multinary_permutations base n` has length `n`
and entries below `base`. -/
lemma multinary_mem (base : ℕ) :
    ∀ (n : ℕ) (t : List ℕ), t ∈ multinary_permutations base n →
      t.length = n ∧ ∀ x ∈ t, x < base := by
  intro n
  induction n with
  | zero =>
    intro t ht
    simp only [multinary_permutations, List.mem_singleton] at ht
    subst ht
    exact ⟨rfl, by simp⟩
  | succ m ih =>
    intro t ht
    simp only [multinary_permutations, List.mem_flatMap, List.mem_map,
      List.mem_range] at ht
    obtain ⟨d, hd, s, hs, rfl⟩ := ht
    obtain ⟨hlen, hmem⟩ := ih s hs
    refine ⟨by simp [hlen], ?_⟩
    intro x hx
    rcases List.mem_cons.mp hx with rfl | hx
    · exact hd
    · exact hmem x hx

/-- The loop invariant of `determine_coarse_dimensions`: the provisional
optimum has one entry per dimension, each between 1 and the fine extent. -/
def DCDInv (fine opt : List ℕ) : Prop :=
  opt.length = fine.length ∧
  ∀ i, i < fine.length → 1 ≤ opt.getD i 0 ∧ opt.getD i 0 ≤ fine.getD i 0

/-- One loop pass preserves the invariant, and the updated `found` flag list
keeps one entry per dimension. -/
lemma dcdIter_inv (fine : List ℕ) (T : ℕ) (opt : List ℕ) (found : List Bool)
    (hT : 1 ≤ T) (hfine : ∀ i, i < fine.length → 1 ≤ fine.getD i 0)
    (hinv : DCDInv fine opt) :
    DCDInv fine (dcdIter fine T opt found).1 ∧
      (dcdIter fine T opt found).2.length = fine.length := by
  obtain ⟨hlen, hbnd⟩ := hinv
  have hce1 : 1 ≤ kthRootCeil T opt.prod (fine.length - found.count true) :=
    kthRootCeil_pos _ _ _ hT
  have hflce := kthRootFloor_le_ceil T opt.prod (fine.length - found.count true)
  simp only [dcdIter]
  set ce := kthRootCeil T opt.prod (fine.length - found.count true) with hce
  set fl := kthRootFloor T opt.prod (fine.length - found.count true) with hfl
  set optimum' := (List.range fine.length).map (fun i =>
      if (min (fine.getD i 0) ce == fine.getD i 0) && !(found.getD i false)
      then min (fine.getD i 0) ce else opt.getD i 0) with hoptdef
  set found' := (List.range fine.length).map (fun i =>
      found.getD i false ||
        ((min (fine.getD i 0) ce == fine.getD i 0) && !(found.getD i false))) with hfnddef
  have holen : optimum'.length = fine.length := by rw [hoptdef]; simp
  have hflen : found'.length = fine.length := by rw [hfnddef]; simp
  have hob : ∀ i, i < fine.length →
      1 ≤ optimum'.getD i 0 ∧ optimum'.getD i 0 ≤ fine.getD i 0 := by
    intro i hi
    rw [hoptdef, rangeMap_getD _ _ _ _ hi]
    by_cases h : ((min (fine.getD i 0) ce == fine.getD i 0) && !(found.getD i false)) = true
    · rw [if_pos h]
      exact ⟨Nat.le_min.mpr ⟨hfine i hi, hce1⟩, Nat.min_le_left _ _⟩
    · rw [if_neg h]
      exact hbnd i hi
  have hopt' : DCDInv fine optimum' := ⟨holen, hob⟩
  set s_low := (List.range fine.length).map (fun i =>
      if found'.getD i false then optimum'.getD i 0 else max 1 fl) with hslow
  set s_high := (List.range fine.length).map (fun i =>
      if found'.getD i false then optimum'.getD i 0 else min (fine.getD i 0) ce) with hshigh
  have hsll : s_low.length = fine.length := by rw [hslow]; simp
  have hshl : s_high.length = fine.length := by rw [hshigh]; simp
  have hcelt : ∀ i, i < fine.length → found'.getD i false = false →
      ce < fine.getD i 0 := by
    intro i hi hf
    rw [hfnddef, rangeMap_getD _ _ _ _ hi] at hf
    have h2 := (Bool.or_eq_false_iff.mp hf).2
    have h3 := (Bool.or_eq_false_iff.mp hf).1
    rw [h3] at h2
    simp only [Bool.not_false, Bool.and_true, beq_eq_false_iff_ne, ne_eq] at h2
    omega
  have hsl : ∀ i, i < fine.length →
      1 ≤ s_low.getD i 0 ∧ s_low.getD i 0 ≤ fine.getD i 0 := by
    intro i hi
    rw [hslow, rangeMap_getD _ _ _ _ hi]
    by_cases h : found'.getD i false = true
    · rw [if_pos h]; exact hob i hi
    · rw [if_neg h]
      have := hcelt i hi (by simpa using h)
      have h1 := hfine i hi
      exact ⟨Nat.le_max_left _ _, by omega⟩
  have hsh : ∀ i, i < fine.length →
      1 ≤ s_high.getD i 0 ∧ s_high.getD i 0 ≤ fine.getD i 0 := by
    intro i hi
    by_cases h : found'.getD i false = true
    · rw [hshigh, rangeMap_getD _ _ _ _ hi, if_pos h]; exact hob i hi
    · rw [hshigh, rangeMap_getD _ _ _ _ hi, if_neg h]
      exact ⟨Nat.le_min.mpr ⟨hfine i hi, hce1⟩, Nat.min_le_left _ _⟩
  split
  · exact ⟨hopt', by rw [hfnddef]; simp⟩
  · constructor
    · show DCDInv fine (combinationSearch (T : ℤ)
        (multinary_permutations 2 fine.length) s_low s_high
        ((fine.prod : ℕ) : ℤ) optimum').2
      rcases combinationSearch_mem (T : ℤ) s_low s_high
        (multinary_permutations 2 fine.length) ((fine.prod : ℕ) : ℤ) optimum'
        with h | ⟨p, hp, h⟩
      · rw [h]; exact hopt'
      · obtain ⟨hplen, -⟩ := multinary_mem 2 _ p hp
        rw [h]
        constructor
        · rw [sizeVec_length, hplen, hsll, hshl]
          omega
        · intro i hi
          rw [sizeVec_getD _ _ _ i (by omega) (by omega) (by omega)]
          by_cases hpz : p.getD i 0 = 0
          · rw [if_pos hpz]; exact hsl i hi
          · rw [if_neg hpz]; exact hsh i hi
    · simp

/-- The loop preserves the invariant through any number of passes. -/
lemma dcdLoop_inv (fine : List ℕ) (T : ℕ) (hT : 1 ≤ T)
    (hfine : ∀ i, i < fine.length → 1 ≤ fine.getD i 0) :
    ∀ (fuel itc : ℕ) (opt : List ℕ) (found : List Bool),
      DCDInv fine opt → DCDInv fine (dcdLoop fine T fuel itc opt found).2 := by
  intro fuel
  induction fuel with
  | zero => intro itc opt found h; exact h
  | succ n ih =>
    intro itc opt found h
    simp only [dcdLoop]
    split
    · exact h
    · exact ih _ _ _ (dcdIter_inv fine T opt found hT hfine h).1

/-- C8: whenever `determine_coarse_dimensions` returns (for any integer
target, clamping included, and positive fine extents), the result has one
entry per dimension, each at least 1 and at most the corresponding fine
extent. -/
theorem dcd_result_bounds (target : ℤ) (fine_size : List ℕ)
    (hfine : ∀ i, i < fine_size.length → 1 ≤ fine_size.getD i 0)
    (res : List ℕ)
    (hres : determine_coarse_dimensions target fine_size = .ok res) :
    res.length = fine_size.length ∧
    ∀ i, i < fine_size.length →
      1 ≤ res.getD i 0 ∧ res.getD i 0 ≤ fine_size.getD i 0 := by
  have hT : 1 ≤ (max 1 (min target ((fine_size.prod : ℕ) : ℤ))).toNat := by
    have h1 : (1 : ℤ) ≤ max 1 (min target ((fine_size.prod : ℕ) : ℤ)) := le_max_left _ _
    omega
  have hrep : DCDInv fine_size (List.replicate fine_size.length 1) := by
    constructor
    · simp
    · intro i hi
      rw [List.getD_eq_getElem _ _ (by simpa using hi)]
      simp only [List.getElem_replicate]
      exact ⟨le_refl 1, hfine i hi⟩
  have hloop := dcdLoop_inv fine_size _ hT hfine (fine_size.length + 1) 0
    (List.replicate fine_size.length 1) (List.replicate fine_size.length false) hrep
  simp only [determine_coarse_dimensions] at hres
  split at hres
  · exact absurd hres (by simp)
  · injection hres with h
    rw [← h]
    exact hloop

/-- Witness for C8: target 7 on fine extents `[3, 3]` returns `[3, 3]`, whose
entries are within the required bounds. -/
theorem dcd_result_bounds_witness :
    (∀ i, i < ([3, 3] : List ℕ).length → 1 ≤ ([3, 3] : List ℕ).getD i 0) ∧
    (([3, 3] : List ℕ).length = ([3, 3] : List ℕ).length ∧
      ∀ i, i < ([3, 3] : List ℕ).length →
        1 ≤ ([3, 3] : List ℕ).getD i 0 ∧
          ([3, 3] : List ℕ).getD i 0 ≤ ([3, 3] : List ℕ).getD i 0) :=
  ⟨by decide, dcd_result_bounds 7 [3, 3] (by decide) [3, 3] rfl⟩

/-! ## C5: the combination search returns the first closest combination -/

/-- The combination-search fold, abstracted over the list of candidate size
vectors (the images of the enumerated permutations under `sizeVec`). -/
def searchFoldZ (T : ℤ) (vs : List (List ℕ)) (d0 : ℤ) (o0 : List ℕ) : ℤ × List ℕ :=
  vs.foldl
    (fun st v => if |T - (v.prod : ℤ)| < st.1 then (T - (v.prod : ℤ), v) else st)
    (d0, o0)

/-- `combinationSearch` is the abstract fold over the mapped size vectors. -/
lemma combinationSearch_eq_searchFoldZ (T : ℤ) (perms : List (List ℕ))
    (lo hi : List ℕ) (d0 : ℤ) (o0 : List ℕ) :
    combinationSearch T perms lo hi d0 o0 =
      searchFoldZ T (perms.map (sizeVec lo hi)) d0 o0 := by
  simp only [combinationSearch, searchFoldZ, List.foldl_map]

/-- Although the source stores the SIGNED distance in the fold state, the
fold still returns the first candidate of minimal absolute distance,
provided every candidate beats the initial distance and every product that
appears after a position where some larger product stood has already
appeared before that position (true for the graded candidate lists the
caller builds).  Once a candidate with negative signed distance is kept, no
later candidate can be strictly closer: a later candidate with a product at
least as large is at least as far beyond the target, and one with a smaller
product repeats an earlier product that the kept candidate already beat. -/
lemma searchFoldZ_firstMin (T d0 : ℤ) (o0 : List ℕ) :
    ∀ (vs : List (List ℕ)),
      (∀ v ∈ vs, |T - (v.prod : ℤ)| < d0) →
      (∀ i j, i < j → j < vs.length →
        (vs.getD j []).prod < (vs.getD i []).prod →
        ∃ k, k < i ∧ (vs.getD k []).prod = (vs.getD j []).prod) →
      vs ≠ [] →
      ∃ i, i < vs.length ∧
        searchFoldZ T vs d0 o0 =
          (T - ((vs.getD i []).prod : ℤ), vs.getD i []) ∧
        (∀ j, j < vs.length →
          |T - ((vs.getD i []).prod : ℤ)| ≤ |T - ((vs.getD j []).prod : ℤ)|) ∧
        (∀ j, j < i →
          |T - ((vs.getD i []).prod : ℤ)| < |T - ((vs.getD j []).prod : ℤ)|) := by
  intro vs
  induction vs using List.reverseRecOn with
  | nil => intro _ _ hne; exact absurd rfl hne
  | append_singleton xs x ih =>
    intro H1 HC _
    have hfold : searchFoldZ T (xs ++ [x]) d0 o0 =
        (if |T - (x.prod : ℤ)| < (searchFoldZ T xs d0 o0).1 then
          (T - (x.prod : ℤ), x) else searchFoldZ T xs d0 o0) := by
      unfold searchFoldZ
      rw [List.foldl_append]
      rfl
    have hgetlast : (xs ++ [x]).getD xs.length [] = x := by
      rw [List.getD_eq_getElem _ _ (by simp)]
      simp
    have hgetpre : ∀ k, k < xs.length → (xs ++ [x]).getD k [] = xs.getD k [] := by
      intro k hk
      rw [List.getD_append _ _ _ _ hk]
    have hlenapp : (xs ++ [x]).length = xs.length + 1 := by simp
    by_cases hxs : xs = []
    · subst hxs
      have hx : |T - (x.prod : ℤ)| < d0 := H1 x (by simp)
      refine ⟨0, by simp, ?_, ?_, ?_⟩
      · rw [hfold]
        have h0 : searchFoldZ T [] d0 o0 = (d0, o0) := rfl
        rw [List.nil_append] at hfold ⊢
        rw [show searchFoldZ T ([] : List (List ℕ)) d0 o0 = (d0, o0) from rfl]
        rw [if_pos hx]
        rfl
      · intro j hj
        have : j = 0 := by
          rw [List.nil_append, List.length_singleton] at hj
          omega
        subst this
        exact le_refl _
      · intro j hj
        omega
    · obtain ⟨i0, hi0, heq, hmin, hstrict⟩ := ih
        (fun v hv => H1 v (List.mem_append_left _ hv))
        (fun i j hij hj hlt => by
          rw [← hgetpre i (by omega), ← hgetpre j hj] at hlt
          obtain ⟨k, hk, hkeq⟩ := HC i j hij (by omega) hlt
          refine ⟨k, hk, ?_⟩
          rw [← hgetpre k (by omega), ← hgetpre j hj]
          exact hkeq)
        hxs
      rw [hfold, heq]
      by_cases hsel : |T - (x.prod : ℤ)| < T - ((xs.getD i0 []).prod : ℤ)
      · rw [if_pos hsel]
        refine ⟨xs.length, by omega, ?_, ?_, ?_⟩
        · rw [hgetlast]
        · intro j hj
          rw [hgetlast]
          have hj' : j < xs.length ∨ j = xs.length := by omega
          rcases hj' with hj' | rfl
          · rw [hgetpre j hj']
            have h1 : T - ((xs.getD i0 []).prod : ℤ) ≤ |T - ((xs.getD i0 []).prod : ℤ)| :=
              le_abs_self _
            exact le_of_lt (lt_of_lt_of_le hsel (le_trans h1 (hmin j hj')))
          · rw [hgetlast]
        · intro j hjlt
          rw [hgetlast, hgetpre j hjlt]
          have h1 : T - ((xs.getD i0 []).prod : ℤ) ≤ |T - ((xs.getD i0 []).prod : ℤ)| :=
            le_abs_self _
          exact lt_of_lt_of_le hsel (le_trans h1 (hmin j hjlt))
      · rw [if_neg hsel]
        refine ⟨i0, by omega, ?_, ?_, ?_⟩
        · rw [hgetpre i0 hi0]
        · intro j hj
          rw [hlenapp] at hj
          have hj' : j < xs.length ∨ j = xs.length := by omega
          rcases hj' with hj' | rfl
          · rw [hgetpre i0 hi0, hgetpre j hj']
            exact hmin j hj'
          · rw [hgetpre i0 hi0, hgetlast]
            push_neg at hsel
            by_cases hP : 0 ≤ T - ((xs.getD i0 []).prod : ℤ)
            · rw [abs_of_nonneg hP] at *
              exact hsel
            · push_neg at hP
              rcases le_or_lt ((xs.getD i0 []).prod) x.prod with hge | hlt
              · have hcast : ((xs.getD i0 []).prod : ℤ) ≤ (x.prod : ℤ) := by
                  exact_mod_cast hge
                have hx2 : T - (x.prod : ℤ) < 0 := by linarith
                rw [abs_of_neg hP, abs_of_neg hx2]
                linarith
              · obtain ⟨k, hk, hkeq⟩ := HC i0 xs.length hi0 (by omega)
                  (by rw [hgetlast, hgetpre i0 hi0]; exact hlt)
                rw [hgetlast, hgetpre k (by omega)] at hkeq
                have hmk := hmin k (by omega)
                rw [show ((xs.getD k []).prod : ℤ) = (x.prod : ℤ) from by
                  exact_mod_cast hkeq] at hmk
                exact hmk
        · intro j hjlt
          rw [hgetpre i0 hi0, hgetpre j (by omega)]
          exact hstrict j hjlt

/-- Binary case of the enumerator: the tuples starting with 0 (in order)
followed by the tuples starting with 1. -/
lemma multinary_two_succ (n : ℕ) :
    multinary_permutations 2 (n + 1) =
      (multinary_permutations 2 n).map (fun t => 0 :: t) ++
        (multinary_permutations 2 n).map (fun t => 1 :: t) := by
  show (List.range 2).flatMap _ = _
  rw [show List.range 2 = [0, 1] from by decide]
  simp [List.flatMap]

/-- Completeness: every 0/1 tuple of length `n` is enumerated. -/
lemma multinary_complete (base : ℕ) :
    ∀ (n : ℕ) (t : List ℕ), t.length = n → (∀ x ∈ t, x < base) →
      t ∈ multinary_permutations base n := by
  intro n
  induction n with
  | zero =>
    intro t ht _
    rw [List.length_eq_zero.mp ht]
    simp [multinary_permutations]
  | succ m ih =>
    intro t ht hb
    match t with
    | d :: s =>
      simp only [multinary_permutations, List.mem_flatMap, List.mem_map, List.mem_range]
      refine ⟨d, hb d (by simp), s, ih s (by simpa using ht) (fun x hx => hb x (by simp [hx])), rfl⟩

/-- The binary enumeration is strictly increasing in the lexicographic order
(most significant position first). -/
lemma multinary_two_sorted :
    ∀ n : ℕ, (multinary_permutations 2 n).Pairwise
      (fun t t' => List.Lex (· < ·) t t') := by
  intro n
  induction n with
  | zero => simp [multinary_permutations]
  | succ m ih =>
    rw [multinary_two_succ]
    rw [List.pairwise_append]
    refine ⟨?_, ?_, ?_⟩
    · rw [List.pairwise_map]
      exact ih.imp (fun h => List.Lex.cons h)
    · rw [List.pairwise_map]
      exact ih.imp (fun h => List.Lex.cons h)
    · intro t1 h1 t2 h2
      obtain ⟨s1, _, rfl⟩ := List.mem_map.mp h1
      obtain ⟨s2, _, rfl⟩ := List.mem_map.mp h2
      exact List.Lex.rel (by omega)

/-- The enumeration is never empty. -/
lemma multinary_two_ne_nil (n : ℕ) : multinary_permutations 2 n ≠ [] := by
  induction n with
  | zero => simp [multinary_permutations]
  | succ m ih =>
    rw [multinary_two_succ]
    simp [ih]

/-- In a lexicographically sorted list, any member lexicographically below
the element at position `i` sits at an earlier position. -/
lemma lex_mem_idx_lt (l : List (List ℕ))
    (hpw : l.Pairwise (fun t t' => List.Lex (· < ·) t t'))
    (i : ℕ) (hi : i < l.length) (t' : List ℕ) (ht' : t' ∈ l)
    (hlex : List.Lex (· < ·) t' (l.getD i [])) :
    ∃ k, k < i ∧ l.getD k [] = t' := by
  obtain ⟨⟨k, hk⟩, hkeq⟩ := List.mem_iff_get.mp ht'
  refine ⟨k, ?_, ?_⟩
  · rcases lt_trichotomy k i with h | heq | h
    · exact h
    · exfalso
      subst heq
      have h1 : l.getD k [] = t' := by
        rw [List.getD_eq_getElem _ _ hk, ← hkeq, List.get_eq_getElem]
      rw [h1] at hlex
      exact IsAsymm.asymm _ _ hlex hlex
    · exfalso
      have hrel := List.pairwise_iff_get.mp hpw ⟨i, hi⟩ ⟨k, hk⟩ h
      have h2 : List.Lex (· < ·) (l.getD i []) t' := by
        rw [List.getD_eq_getElem _ _ hi, ← hkeq]
        simpa [List.get_eq_getElem] using hrel
      exact IsAsymm.asymm _ _ hlex h2
  · rw [← hkeq, List.getD_eq_getElem _ _ hk, List.get_eq_getElem]

/-- Number of unresolved dimensions: positions where the low and high
candidates differ. -/
def unresolvedCount : List ℕ → List ℕ → ℕ
  | l :: ls, h :: hs => (if l = h then 0 else 1) + unresolvedCount ls hs
  | _, _ => 0

/-- Number of unresolved positions where the permutation picks the high
candidate (bit 1). -/
def unresolvedOnes : List ℕ → List ℕ → List ℕ → ℕ
  | b :: bs, l :: ls, h :: hs =>
      (if l ≠ h ∧ b ≠ 0 then 1 else 0) + unresolvedOnes bs ls hs
  | _, _, _ => 0

/-- Product of the (fixed) candidates over the resolved positions. -/
def resolvedProd : List ℕ → List ℕ → ℕ
  | l :: ls, h :: hs => (if l = h then l else 1) * resolvedProd ls hs
  | _, _ => 1

lemma unresolvedOnes_nil_left (lo hi : List ℕ) : unresolvedOnes [] lo hi = 0 := by
  cases lo <;> cases hi <;> rfl

lemma unresolvedOnes_nil_mid (b : ℕ) (bs hi : List ℕ) :
    unresolvedOnes (b :: bs) [] hi = 0 := by
  cases hi <;> rfl

lemma unresolvedOnes_nil_right (b : ℕ) (bs ls : List ℕ) (l : ℕ) :
    unresolvedOnes (b :: bs) (l :: ls) [] = 0 := rfl

lemma unresolvedOnes_cons (b : ℕ) (bs : List ℕ) (l : ℕ) (ls : List ℕ)
    (h : ℕ) (hs : List ℕ) :
    unresolvedOnes (b :: bs) (l :: ls) (h :: hs) =
      (if l ≠ h ∧ b ≠ 0 then 1 else 0) + unresolvedOnes bs ls hs := rfl

lemma unresolvedCount_cons (l : ℕ) (ls : List ℕ) (h : ℕ) (hs : List ℕ) :
    unresolvedCount (l :: ls) (h :: hs) =
      (if l = h then 0 else 1) + unresolvedCount ls hs := rfl

lemma resolvedProd_cons (l : ℕ) (ls : List ℕ) (h : ℕ) (hs : List ℕ) :
    resolvedProd (l :: ls) (h :: hs) = (if l = h then l else 1) * resolvedProd ls hs := rfl

/-- A permutation never selects the high candidate at more positions than
there are unresolved positions. -/
lemma unresolvedOnes_le :
    ∀ (t lo hi : List ℕ), unresolvedOnes t lo hi ≤ unresolvedCount lo hi := by
  intro t
  induction t with
  | nil => intro lo hi; rw [unresolvedOnes_nil_left]; omega
  | cons b bs ih =>
    intro lo hi
    match lo, hi with
    | [], _ => rw [unresolvedOnes_nil_mid]; omega
    | l :: ls, [] => rw [unresolvedOnes_nil_right]; omega
    | l :: ls, h :: hs =>
      rw [unresolvedOnes_cons, unresolvedCount_cons]
      have := ih ls hs
      by_cases hlh : l = h <;> by_cases hb : b = 0 <;>
        simp only [hlh, hb, ne_eq, not_true_eq_false, not_false_eq_true,
          false_and, and_true, and_false, true_and, if_true, if_false,
          eq_self_iff_true] <;> omega

/-- Under uniform candidates (`low = a`, `high = c` on every unresolved
position) the product of a selected size vector depends only on how many
unresolved positions pick the high candidate. -/
lemma sizeVec_prod_formula (a c : ℕ) :
    ∀ (t lo hi : List ℕ), t.length = lo.length → lo.length = hi.length →
      (∀ pr ∈ lo.zip hi, pr.1 = pr.2 ∨ (pr.1 = a ∧ pr.2 = c)) →
      (sizeVec lo hi t).prod =
        resolvedProd lo hi *
          (a ^ (unresolvedCount lo hi - unresolvedOnes t lo hi) *
            c ^ (unresolvedOnes t lo hi)) := by
  intro t
  induction t with
  | nil =>
    intro lo hi hlen _ _
    have : lo = [] := List.length_eq_zero.mp hlen.symm
    subst this
    rfl
  | cons b bs ih =>
    intro lo hi hlen hlen2 hunif
    match lo, hi with
    | [], _ => simp at hlen
    | l :: ls, [] => simp at hlen2
    | l :: ls, h :: hs =>
      have hcons : sizeVec (l :: ls) (h :: hs) (b :: bs) =
          (if b = 0 then l else h) :: sizeVec ls hs bs := by
        simp [sizeVec]
      have hihl : bs.length = ls.length := by simpa using hlen
      have hihl2 : ls.length = hs.length := by simpa using hlen2
      have hihu : ∀ pr ∈ ls.zip hs, pr.1 = pr.2 ∨ (pr.1 = a ∧ pr.2 = c) := by
        intro pr hpr
        exact hunif pr (by simp [hpr])
      have hIH := ih ls hs hihl hihl2 hihu
      have hmle := unresolvedOnes_le bs ls hs
      rw [hcons, List.prod_cons, hIH, unresolvedOnes_cons, unresolvedCount_cons,
        resolvedProd_cons]
      by_cases hlh : l = h
      · simp only [hlh, ite_self, eq_self_iff_true, if_true, ne_eq,
          not_true_eq_false, false_and, if_false, Nat.zero_add]
        ring
      · have hac2 : l = a ∧ h = c := by
          rcases hunif (l, h) (by simp) with h1 | h2
          · exact absurd h1 hlh
          · simpa using h2
        obtain ⟨hla, hhc⟩ := hac2
        subst hla
        subst hhc
        by_cases hb : b = 0
        · rw [if_neg (show ¬(l ≠ h ∧ b ≠ 0) from by simp [hb])]
          rw [if_neg hlh, if_neg hlh, if_pos hb]
          simp only [Nat.zero_add]
          rw [show 1 + unresolvedCount ls hs - unresolvedOnes bs ls hs =
              (unresolvedCount ls hs - unresolvedOnes bs ls hs) + 1 from by omega,
            pow_succ]
          ring
        · rw [if_pos (show l ≠ h ∧ b ≠ 0 from ⟨hlh, hb⟩)]
          rw [if_neg hlh, if_neg hlh, if_neg hb]
          rw [show 1 + unresolvedCount ls hs - (1 + unresolvedOnes bs ls hs) =
              unresolvedCount ls hs - unresolvedOnes bs ls hs from by omega]
          rw [show 1 + unresolvedOnes bs ls hs = unresolvedOnes bs ls hs + 1 from by
              omega, pow_succ]
          ring

/-- Monotonicity of `R * a^(u-m) * c^m` in `m` for `1 ≤ a ≤ c`, `m ≤ u`. -/
lemma uniformProd_mono (a c R u : ℕ) (hac : a ≤ c) (m m' : ℕ)
    (hm : m ≤ m') (hm' : m' ≤ u) :
    R * (a ^ (u - m) * c ^ m) ≤ R * (a ^ (u - m') * c ^ m') := by
  have h1 : u - m = (u - m') + (m' - m) := by omega
  rw [h1, pow_add]
  have h2 : a ^ (m' - m) * c ^ m ≤ c ^ (m' - m) * c ^ m :=
    Nat.mul_le_mul_right _ (Nat.pow_le_pow_left hac _)
  calc R * (a ^ (u - m') * a ^ (m' - m) * c ^ m)
      = R * (a ^ (u - m') * (a ^ (m' - m) * c ^ m)) := by ring
    _ ≤ R * (a ^ (u - m') * (c ^ (m' - m) * c ^ m)) := by
        exact mul_le_mul_left' (mul_le_mul_left' h2 _) _
    _ = R * (a ^ (u - m') * c ^ m') := by
        have hc2 : c ^ (m' - m) * c ^ m = c ^ m' := by
          rw [← pow_add]
          congr 1
          omega
        rw [hc2]

/-- A 0/1 tuple with at least one high pick on an unresolved position can be
made lexicographically smaller with exactly one fewer such pick (clear the
first contributing bit). -/
lemma unresolvedOnes_decrement :
    ∀ (t lo hi : List ℕ), (∀ x ∈ t, x < 2) →
      1 ≤ unresolvedOnes t lo hi →
      ∃ t', t'.length = t.length ∧ (∀ x ∈ t', x < 2) ∧
        List.Lex (· < ·) t' t ∧
        unresolvedOnes t' lo hi = unresolvedOnes t lo hi - 1 := by
  intro t
  induction t with
  | nil =>
    intro lo hi _ h1
    rw [unresolvedOnes_nil_left] at h1
    omega
  | cons b bs ih =>
    intro lo hi hb h1
    match lo, hi with
    | [], _ =>
      rw [unresolvedOnes_nil_mid] at h1
      omega
    | l :: ls, [] =>
      rw [unresolvedOnes_nil_right] at h1
      omega
    | l :: ls, h :: hs =>
      by_cases hc : l ≠ h ∧ b ≠ 0
      · refine ⟨0 :: bs, by simp, ?_, List.Lex.rel (by omega), ?_⟩
        · intro x hx
          rcases List.mem_cons.mp hx with rfl | hx
          · omega
          · exact hb x (List.mem_cons_of_mem _ hx)
        · rw [unresolvedOnes_cons, unresolvedOnes_cons, if_pos hc,
            if_neg (show ¬(l ≠ h ∧ (0 : ℕ) ≠ 0) from by simp)]
          omega
      · have h2 : unresolvedOnes (b :: bs) (l :: ls) (h :: hs) =
            unresolvedOnes bs ls hs := by
          rw [unresolvedOnes_cons, if_neg hc]
          omega
        rw [h2] at h1
        obtain ⟨t'', hlen, hbits, hlex, hones⟩ :=
          ih ls hs (fun x hx => hb x (List.mem_cons_of_mem _ hx)) h1
        refine ⟨b :: t'', by simp [hlen], ?_, List.Lex.cons hlex, ?_⟩
        · intro x hx
          rcases List.mem_cons.mp hx with rfl | hx
          · exact hb x (by simp)
          · exact hbits x hx
        · rw [unresolvedOnes_cons, unresolvedOnes_cons, if_neg hc, hones]
          omega

/-- Any number of high picks up to the tuple's own count is realized by some
tuple that is equal or lexicographically smaller. -/
lemma unresolvedOnes_reach :
    ∀ (d : ℕ) (t lo hi : List ℕ) (k : ℕ), (∀ x ∈ t, x < 2) →
      unresolvedOnes t lo hi - k = d → k ≤ unresolvedOnes t lo hi →
      ∃ t', t'.length = t.length ∧ (∀ x ∈ t', x < 2) ∧
        (t' = t ∨ List.Lex (· < ·) t' t) ∧ unresolvedOnes t' lo hi = k := by
  intro d
  induction d with
  | zero =>
    intro t lo hi k hb hd hk
    exact ⟨t, rfl, hb, Or.inl rfl, by omega⟩
  | succ n ih =>
    intro t lo hi k hb hd hk
    have h1 : 1 ≤ unresolvedOnes t lo hi := by omega
    obtain ⟨t'', hlen, hbits, hlex, hones⟩ := unresolvedOnes_decrement t lo hi hb h1
    obtain ⟨t', hlen', hbits', hor, hones'⟩ := ih t'' lo hi k hbits (by omega) (by omega)
    refine ⟨t', by rw [hlen', hlen], hbits', ?_, hones'⟩
    rcases hor with rfl | hlex'
    · exact Or.inr hlex
    · exact Or.inr (IsTrans.trans _ _ _ hlex' hlex)

lemma getD_mem (l : List (List ℕ)) (i : ℕ) (h : i < l.length) : l.getD i [] ∈ l := by
  rw [List.getD_eq_getElem _ _ h]
  exact List.getElem_mem h

lemma getD_map_sizeVec (lo hi : List ℕ) (perms : List (List ℕ)) (i : ℕ)
    (h : i < perms.length) :
    (perms.map (sizeVec lo hi)).getD i [] = sizeVec lo hi (perms.getD i []) := by
  rw [List.getD_eq_getElem _ _ (by simpa using h), List.getD_eq_getElem _ _ h]
  simp

/-- Under uniform candidates, whenever a later enumerated combination has a
strictly smaller product than an earlier one, that product already occurred
at a position before the earlier one.  (Products depend only on the number of
unresolved high picks and are monotone in it; clearing high bits moves a
tuple lexicographically — hence positionally — earlier.) -/
lemma multinary_two_HC (n : ℕ) (lo hi : List ℕ) (a c : ℕ)
    (hac : a ≤ c) (hlo : lo.length = n) (hhi : hi.length = n)
    (hunif : ∀ pr ∈ lo.zip hi, pr.1 = pr.2 ∨ (pr.1 = a ∧ pr.2 = c)) :
    ∀ i j, i < j → j < (multinary_permutations 2 n).length →
      (sizeVec lo hi ((multinary_permutations 2 n).getD j [])).prod <
        (sizeVec lo hi ((multinary_permutations 2 n).getD i [])).prod →
      ∃ k, k < i ∧
        (sizeVec lo hi ((multinary_permutations 2 n).getD k [])).prod =
          (sizeVec lo hi ((multinary_permutations 2 n).getD j [])).prod := by
  intro i j hij hj hlt
  have hi' : i < (multinary_permutations 2 n).length := by omega
  have hmemi := getD_mem _ i hi'
  have hmemj := getD_mem _ j hj
  obtain ⟨hleni, hbitsi⟩ := multinary_mem 2 n _ hmemi
  obtain ⟨hlenj, hbitsj⟩ := multinary_mem 2 n _ hmemj
  have hfi := sizeVec_prod_formula a c ((multinary_permutations 2 n).getD i [])
    lo hi (hleni.trans hlo.symm) (hlo.trans hhi.symm) hunif
  have hfj := sizeVec_prod_formula a c ((multinary_permutations 2 n).getD j [])
    lo hi (hlenj.trans hlo.symm) (hlo.trans hhi.symm) hunif
  have hmm : unresolvedOnes ((multinary_permutations 2 n).getD j []) lo hi <
      unresolvedOnes ((multinary_permutations 2 n).getD i []) lo hi := by
    by_contra hcon
    push_neg at hcon
    have := uniformProd_mono a c (resolvedProd lo hi) (unresolvedCount lo hi)
      hac _ _ hcon (unresolvedOnes_le _ lo hi)
    rw [← hfi, ← hfj] at this
    omega
  obtain ⟨t', hlen', hbits', hor, hones'⟩ := unresolvedOnes_reach
    (unresolvedOnes ((multinary_permutations 2 n).getD i []) lo hi -
      unresolvedOnes ((multinary_permutations 2 n).getD j []) lo hi)
    ((multinary_permutations 2 n).getD i []) lo hi
    (unresolvedOnes ((multinary_permutations 2 n).getD j []) lo hi)
    hbitsi rfl (by omega)
  have hlex : List.Lex (· < ·) t' ((multinary_permutations 2 n).getD i []) := by
    rcases hor with heq | h
    · rw [heq] at hones'
      exact absurd hones' (by omega)
    · exact h
  have ht'mem : t' ∈ multinary_permutations 2 n :=
    multinary_complete 2 n t' (hlen'.trans hleni) hbits'
  obtain ⟨k, hk, hkeq⟩ := lex_mem_idx_lt _ (multinary_two_sorted n) i hi' t' ht'mem hlex
  refine ⟨k, hk, ?_⟩
  rw [hkeq]
  have hft' := sizeVec_prod_formula a c t' lo hi
    ((hlen'.trans hleni).trans hlo.symm) (hlo.trans hhi.symm) hunif
  rw [hft', hfj, hones']

/-- C5: under the conditions in force at the call site in
`determine_coarse_dimensions` — resolved dimensions carry equal low/high
candidates, unresolved ones the common floor `a` and ceiling `c` with
`a ≤ c`, and the initial distance `dist = fine_size.prod()` exceeds every
candidate's distance — the combination search returns the size vector of the
floor/ceiling combination whose product is closest in absolute distance to
the target, and on ties the first combination produced by the enumerator
wins: every earlier combination is strictly farther. -/
theorem combinationSearch_first_closest (T d0 : ℤ) (n : ℕ) (lo hi o0 : List ℕ)
    (a c : ℕ) (hac : a ≤ c)
    (hlo : lo.length = n) (hhi : hi.length = n)
    (hunif : ∀ pr ∈ lo.zip hi, pr.1 = pr.2 ∨ (pr.1 = a ∧ pr.2 = c))
    (hd0 : ∀ p ∈ multinary_permutations 2 n,
      |T - ((sizeVec lo hi p).prod : ℤ)| < d0) :
    ∃ i, i < (multinary_permutations 2 n).length ∧
      (combinationSearch T (multinary_permutations 2 n) lo hi d0 o0).2 =
        sizeVec lo hi ((multinary_permutations 2 n).getD i []) ∧
      (∀ j, j < (multinary_permutations 2 n).length →
        |T - ((sizeVec lo hi ((multinary_permutations 2 n).getD i [])).prod : ℤ)| ≤
          |T - ((sizeVec lo hi ((multinary_permutations 2 n).getD j [])).prod : ℤ)|) ∧
      (∀ j, j < i →
        |T - ((sizeVec lo hi ((multinary_permutations 2 n).getD i [])).prod : ℤ)| <
          |T - ((sizeVec lo hi ((multinary_permutations 2 n).getD j [])).prod : ℤ)|) := by
  have hmap : ∀ idx, idx < (multinary_permutations 2 n).length →
      ((multinary_permutations 2 n).map (sizeVec lo hi)).getD idx [] =
        sizeVec lo hi ((multinary_permutations 2 n).getD idx []) :=
    fun idx h => getD_map_sizeVec lo hi _ idx h
  have hmlen : ((multinary_permutations 2 n).map (sizeVec lo hi)).length =
      (multinary_permutations 2 n).length := by simp
  have hH1 : ∀ v ∈ (multinary_permutations 2 n).map (sizeVec lo hi),
      |T - (v.prod : ℤ)| < d0 := by
    intro v hv
    obtain ⟨p, hp, rfl⟩ := List.mem_map.mp hv
    exact hd0 p hp
  have hHC : ∀ i j, i < j →
      j < ((multinary_permutations 2 n).map (sizeVec lo hi)).length →
      (((multinary_permutations 2 n).map (sizeVec lo hi)).getD j []).prod <
        (((multinary_permutations 2 n).map (sizeVec lo hi)).getD i []).prod →
      ∃ k, k < i ∧
        (((multinary_permutations 2 n).map (sizeVec lo hi)).getD k []).prod =
          (((multinary_permutations 2 n).map (sizeVec lo hi)).getD j []).prod := by
    intro i j hij hj hlt
    rw [hmlen] at hj
    rw [hmap i (by omega), hmap j hj] at hlt
    obtain ⟨k, hk, hkeq⟩ := multinary_two_HC n lo hi a c hac hlo hhi hunif i j hij hj hlt
    refine ⟨k, hk, ?_⟩
    rw [hmap k (by omega), hmap j hj]
    exact hkeq
  have hne : (multinary_permutations 2 n).map (sizeVec lo hi) ≠ [] := by
    simp [multinary_two_ne_nil n]
  obtain ⟨i, hilt, heq, hmin, hstrict⟩ := searchFoldZ_firstMin T d0 o0 _ hH1 hHC hne
  rw [hmlen] at hilt
  refine ⟨i, hilt, ?_, ?_, ?_⟩
  · rw [combinationSearch_eq_searchFoldZ, heq]
    show ((multinary_permutations 2 n).map (sizeVec lo hi)).getD i [] = _
    exact hmap i hilt
  · intro j hj
    have h2 := hmin j (by rw [hmlen]; exact hj)
    rw [hmap i hilt, hmap j hj] at h2
    exact h2
  · intro j hj
    have h2 := hstrict j hj
    rw [hmap i hilt, hmap j (by omega)] at h2
    exact h2

/-- Witness for C5: the concrete search state arising in pass 1 of
`determine_coarse_dimensions 11 [2, 10]` (resolved dimension 0 fixed at 2,
unresolved dimension 1 with floor 3 and ceiling 4). -/
theorem combinationSearch_first_closest_witness :
    ∃ i, i < (multinary_permutations 2 2).length ∧
      (combinationSearch 11 (multinary_permutations 2 2) [2, 3] [2, 4] 20 [2, 1]).2 =
        sizeVec [2, 3] [2, 4] ((multinary_permutations 2 2).getD i []) ∧
      (∀ j, j < (multinary_permutations 2 2).length →
        |(11 : ℤ) - ((sizeVec [2, 3] [2, 4]
            ((multinary_permutations 2 2).getD i [])).prod : ℤ)| ≤
          |(11 : ℤ) - ((sizeVec [2, 3] [2, 4]
            ((multinary_permutations 2 2).getD j [])).prod : ℤ)|) ∧
      (∀ j, j < i →
        |(11 : ℤ) - ((sizeVec [2, 3] [2, 4]
            ((multinary_permutations 2 2).getD i [])).prod : ℤ)| <
          |(11 : ℤ) - ((sizeVec [2, 3] [2, 4]
            ((multinary_permutations 2 2).getD j [])).prod : ℤ)|) :=
  combinationSearch_first_closest 11 20 2 [2, 3] [2, 4] [2, 1] 3 4 (by decide)
    (by decide) (by decide) (by decide) (by decide)

/-! ## Sparse matrices and `_subgrid_projections`
(grid_operators.py lines 571-614) -/

/-- A scipy sparse matrix: shape metadata plus an entry function (entries
outside the shape are 0 for the matrices built here). -/
structure Mat where
  rows : ℕ
  cols : ℕ
  entry : ℕ → ℕ → ℤ

/-- The all-zero empty matrix, used as a lookup default. -/
def Mat.zero : Mat := ⟨0, 0, fun _ _ => 0⟩

/-- `.T` -/
def Mat.transpose (m : Mat) : Mat := ⟨m.cols, m.rows, fun r c => m.entry c r⟩

/-- Sparse matrix product (`*` on scipy matrices). -/
def matMul (A B : Mat) : Mat :=
  ⟨A.rows, B.cols, fun r c => ∑ k ∈ Finset.range A.cols, A.entry r k * B.entry k c⟩

/-- `sps.bmat([ms])`: horizontal stacking. -/
def hstack : List Mat → Mat
  | [] => Mat.zero
  | m :: ms =>
    ⟨m.rows, m.cols + (hstack ms).cols,
      fun r c => if c < m.cols then m.entry r c else (hstack ms).entry r (c - m.cols)⟩

/-- `sps.bmat([[m] for m in ms])`: vertical stacking. -/
def vstack : List Mat → Mat
  | [] => Mat.zero
  | m :: ms =>
    ⟨m.rows + (vstack ms).rows, m.cols,
      fun r c => if r < m.rows then m.entry r c else (vstack ms).entry (r - m.rows) c⟩

/-- `sps.block_diag(ms)`. -/
def blockDiag : List Mat → Mat
  | [] => Mat.zero
  | m :: ms =>
    ⟨m.rows + (blockDiag ms).rows, m.cols + (blockDiag ms).cols,
      fun r c =>
        if r < m.rows then (if c < m.cols then m.entry r c else 0)
        else (if c < m.cols then 0 else (blockDiag ms).entry (r - m.rows) (c - m.cols))⟩

/-- `sps.coo_matrix((np.ones(sz), (ind, np.arange(sz))), shape=(tot, sz))`
(lines 599-606): column `j < ind.length` holds a single unit entry in row
`ind[j]`. -/
def cooFromInd (tot : ℕ) (ind : List ℕ) : Mat :=
  ⟨tot, ind.length, fun r c => if c < ind.length ∧ ind.getD c 0 = r then 1 else 0⟩

/-- Modelled from the spec: `pp.fvutils.expand_indices_nd` (porepy utility,
not part of the given sources).  Spec 4.5: local index `j`'s block occupies
positions `j*nd .. j*nd + nd - 1`, so expanding `np.arange(k)` by block size
`nd` yields `np.arange(k * nd)`. -/
def expand_indices_nd (k nd : ℕ) : List ℕ := List.range (k * nd)

/-- `ind[-1] + 1` (lines 611, 613): Python raises `IndexError` when the
array is empty. -/
def lastPlusOne (ind : List ℕ) : Except PyError ℕ :=
  match ind.getLast? with
  | some k => .ok (k + 1)
  | none => .error .indexError

/-- The per-grid loop of `_subgrid_projections` (lines 591-613), carrying the
running face and cell offsets.  The face offset is advanced only for grids of
positive dimension ("Point grids have no faces", lines 609-611). -/
def subgridLoop (nd totF totC : ℕ) :
    List Grid → ℕ → ℕ → Except PyError (List Mat × List Mat)
  | [], _, _ => .ok ([], [])
  | g :: gs, fOff, cOff =>
    let face_ind := (expand_indices_nd g.num_faces nd).map (fun j => fOff + j)
    let cell_ind := (expand_indices_nd g.num_cells nd).map (fun j => cOff + j)
    let faceMat := cooFromInd totF face_ind
    let cellMat := cooFromInd totC cell_ind
    match (if 0 < g.dim then lastPlusOne face_ind else .ok fOff) with
    | .error e => .error e
    | .ok fOff' =>
      match lastPlusOne cell_ind with
      | .error e => .error e
      | .ok cOff' =>
        match subgridLoop nd totF totC gs fOff' cOff' with
        | .error e => .error e
        | .ok rest => .ok (cellMat :: rest.1, faceMat :: rest.2)

/-- Embedding of `_subgrid_projections` (lines 571-614).  The two dictionaries
keyed by grid object identity are modelled as lists aligned with the input
grid sequence (cells first, faces second), which coincides with the source
for sequences of pairwise distinct grids. -/
def _subgrid_projections (grids : List Grid) (nd : ℕ) :
    Except PyError (List Mat × List Mat) :=
  let tot_num_faces := (grids.map (fun g => g.num_faces)).sum * nd
  let tot_num_cells := (grids.map (fun g => g.num_cells)).sum * nd
  subgridLoop nd tot_num_faces tot_num_cells grids 0 0

/-- Closed form of the embedding matrices: one `cooFromInd` block per size,
with offsets accumulating left to right. -/
def projMats (tot : ℕ) : List ℕ → ℕ → List Mat
  | [], _ => []
  | sz :: szs, off =>
    cooFromInd tot ((List.range sz).map (fun j => off + j)) ::
      projMats tot szs (off + sz)

/-- Well-formedness of a grid sequence: every grid has at least one cell,
positive-dimensional grids have faces, and point grids have none. -/
def GridsOK (grids : List Grid) : Prop :=
  ∀ g ∈ grids, 0 < g.num_cells ∧ (0 < g.dim → 0 < g.num_faces) ∧
    (g.dim = 0 → g.num_faces = 0)

lemma rangeMap_getLast (off m : ℕ) (hm : 0 < m) :
    ((List.range m).map (fun j => off + j)).getLast? = some (off + (m - 1)) := by
  rw [List.getLast?_eq_getElem?]
  have hlen : ((List.range m).map (fun j => off + j)).length = m := by simp
  rw [hlen]
  rw [List.getElem?_eq_getElem (by simp; omega)]
  simp

lemma lastPlusOne_range (off m : ℕ) (hm : 0 < m) :
    lastPlusOne ((List.range m).map (fun j => off + j)) = .ok (off + m) := by
  unfold lastPlusOne
  rw [rangeMap_getLast off m hm]
  show Except.ok (off + (m - 1) + 1) = Except.ok (off + m)
  have : off + (m - 1) + 1 = off + m := by omega
  rw [this]

/-- Under the grid well-formedness conditions the loop never raises and
produces exactly the closed-form matrices: both offsets advance by the local
block size of each grid (for faces, a point grid has no faces, so "offset
unchanged" and "advance by the zero local size" coincide). -/
lemma subgridLoop_eq (nd totF totC : ℕ) (hnd : 0 < nd) :
    ∀ (gs : List Grid) (fOff cOff : ℕ), GridsOK gs →
      subgridLoop nd totF totC gs fOff cOff =
        .ok (projMats totC (gs.map (fun g => g.num_cells * nd)) cOff,
          projMats totF (gs.map (fun g => g.num_faces * nd)) fOff) := by
  intro gs
  induction gs with
  | nil => intro fOff cOff _; rfl
  | cons g gs' ih =>
    intro fOff cOff hg
    obtain ⟨hc, hf1, hf0⟩ := hg g (by simp)
    have hg' : GridsOK gs' := fun g' hg'' => hg g' (List.mem_cons_of_mem _ hg'')
    show (match (if 0 < g.dim then
          lastPlusOne ((expand_indices_nd g.num_faces nd).map (fun j => fOff + j))
        else Except.ok fOff) with
      | Except.error e => (Except.error e : Except PyError (List Mat × List Mat))
      | Except.ok fOff' =>
        match lastPlusOne ((expand_indices_nd g.num_cells nd).map (fun j => cOff + j)) with
        | Except.error e => Except.error e
        | Except.ok cOff' =>
          match subgridLoop nd totF totC gs' fOff' cOff' with
          | Except.error e => Except.error e
          | Except.ok rest =>
            Except.ok (cooFromInd totC ((expand_indices_nd g.num_cells nd).map (fun j => cOff + j)) :: rest.1,
              cooFromInd totF ((expand_indices_nd g.num_faces nd).map (fun j => fOff + j)) :: rest.2)) = _
    have hcell : lastPlusOne ((expand_indices_nd g.num_cells nd).map (fun j => cOff + j)) =
        .ok (cOff + g.num_cells * nd) :=
      lastPlusOne_range cOff _ (Nat.mul_pos hc hnd)
    by_cases hdim : 0 < g.dim
    · have hface : lastPlusOne ((expand_indices_nd g.num_faces nd).map (fun j => fOff + j)) =
          .ok (fOff + g.num_faces * nd) :=
        lastPlusOne_range fOff _ (Nat.mul_pos (hf1 hdim) hnd)
      rw [if_pos hdim, hface, hcell]
      show (match subgridLoop nd totF totC gs' (fOff + g.num_faces * nd)
          (cOff + g.num_cells * nd) with
        | Except.error e => (Except.error e : Except PyError (List Mat × List Mat))
        | Except.ok rest =>
          Except.ok (cooFromInd totC ((expand_indices_nd g.num_cells nd).map (fun j => cOff + j)) :: rest.1,
            cooFromInd totF ((expand_indices_nd g.num_faces nd).map (fun j => fOff + j)) :: rest.2)) = _
      rw [ih (fOff + g.num_faces * nd) (cOff + g.num_cells * nd) hg']
      rfl
    · have h0 : g.num_faces = 0 := hf0 (by omega)
      rw [if_neg hdim, hcell]
      show (match subgridLoop nd totF totC gs' fOff (cOff + g.num_cells * nd) with
        | Except.error e => (Except.error e : Except PyError (List Mat × List Mat))
        | Except.ok rest =>
          Except.ok (cooFromInd totC ((expand_indices_nd g.num_cells nd).map (fun j => cOff + j)) :: rest.1,
            cooFromInd totF ((expand_indices_nd g.num_faces nd).map (fun j => fOff + j)) :: rest.2)) = _
      rw [ih fOff (cOff + g.num_cells * nd) hg']
      show Except.ok _ = Except.ok (_, projMats totF ((g.num_faces * nd) :: _) fOff)
      have hsz : g.num_faces * nd = 0 := by rw [h0]; ring
      refine congrArg _ ?_
      refine Prod.ext rfl ?_
      show cooFromInd totF ((expand_indices_nd g.num_faces nd).map (fun j => fOff + j)) ::
          projMats totF (gs'.map (fun g => g.num_faces * nd)) fOff =
        cooFromInd totF ((List.range (g.num_faces * nd)).map (fun j => fOff + j)) ::
          projMats totF (gs'.map (fun g => g.num_faces * nd)) (fOff + g.num_faces * nd)
      have h1 : expand_indices_nd g.num_faces nd = List.range 0 := by
        show List.range (g.num_faces * nd) = List.range 0
        rw [hsz]
      rw [h1, hsz, Nat.add_zero]

lemma cooFromInd_range_entry (tot off sz r c : ℕ) :
    (cooFromInd tot ((List.range sz).map (fun j => off + j))).entry r c =
      if c < sz ∧ off + c = r then 1 else 0 := by
  show (if c < ((List.range sz).map (fun j => off + j)).length ∧
      ((List.range sz).map (fun j => off + j)).getD c 0 = r then (1 : ℤ) else 0) = _
  simp only [List.length_map, List.length_range]
  by_cases h : c < sz
  · rw [rangeMap_getD (fun j => off + j) sz c 0 h]
  · rw [if_neg (by omega), if_neg (by omega)]

lemma projMats_length (tot : ℕ) :
    ∀ (szs : List ℕ) (off : ℕ), (projMats tot szs off).length = szs.length := by
  intro szs
  induction szs with
  | nil => intro off; rfl
  | cons sz szs' ih => intro off; simp [projMats, ih]

/-- The `i`-th closed-form block. -/
lemma projMats_getD (tot : ℕ) :
    ∀ (szs : List ℕ) (off i : ℕ), i < szs.length →
      (projMats tot szs off).getD i Mat.zero =
        cooFromInd tot ((List.range (szs.getD i 0)).map
          (fun j => (off + (szs.take i).sum) + j)) := by
  intro szs
  induction szs with
  | nil => intro off i hi; simp at hi
  | cons sz szs' ih =>
    intro off i hi
    match i with
    | 0 =>
      show cooFromInd tot ((List.range sz).map (fun j => off + j)) = _
      have h1 : ((sz :: szs').take 0).sum = 0 := rfl
      rw [h1, Nat.add_zero]
      rfl
    | i' + 1 =>
      show (projMats tot szs' (off + sz)).getD i' Mat.zero = _
      rw [ih (off + sz) i' (by simpa using hi)]
      have h2 : ∀ j : ℕ, ((off + sz) + (szs'.take i').sum) + j =
          (off + ((sz :: szs').take (i' + 1)).sum) + j := by
        intro j
        simp [List.take, List.sum_cons]
        omega
      have h3 : (List.range (szs'.getD i' 0)).map
            (fun j => ((off + sz) + (szs'.take i').sum) + j) =
          (List.range (((sz :: szs').getD (i' + 1) 0))).map
            (fun j => (off + ((sz :: szs').take (i' + 1)).sum) + j) := by
        rw [List.getD_cons_succ]
        exact List.map_congr_left (fun j _ => h2 j)
      rw [h3]

/-- Every nonzero entry of the `i`-th block sits in the row band
`[off + prefix sum, off + prefix sum + size_i)`; in particular within
`[off, off + total)`. -/
lemma projMats_entry_range (tot : ℕ) :
    ∀ (szs : List ℕ) (off i r c : ℕ), i < szs.length →
      ((projMats tot szs off).getD i Mat.zero).entry r c ≠ 0 →
      off ≤ r ∧ r < off + szs.sum := by
  intro szs
  induction szs with
  | nil => intro off i r c hi; simp at hi
  | cons sz szs' ih =>
    intro off i r c hi hent
    match i with
    | 0 =>
      have h1 : ((projMats tot (sz :: szs') off).getD 0 Mat.zero).entry r c =
          if c < sz ∧ off + c = r then 1 else 0 := by
        show (cooFromInd tot ((List.range sz).map (fun j => off + j))).entry r c = _
        exact cooFromInd_range_entry tot off sz r c
      rw [h1] at hent
      by_cases h : c < sz ∧ off + c = r
      · simp only [List.sum_cons]
        omega
      · rw [if_neg h] at hent
        exact absurd rfl hent
    | i' + 1 =>
      have h2 : ((projMats tot (sz :: szs') off).getD (i' + 1) Mat.zero) =
          (projMats tot szs' (off + sz)).getD i' Mat.zero := rfl
      rw [h2] at hent
      have := ih (off + sz) i' r c (by simpa using hi) hent
      simp only [List.sum_cons]
      omega

/-- Entries of the blocks are 0 or 1 (unit entries). -/
lemma projMats_entry01 (tot : ℕ) :
    ∀ (szs : List ℕ) (off i r c : ℕ), i < szs.length →
      ((projMats tot szs off).getD i Mat.zero).entry r c = 0 ∨
        ((projMats tot szs off).getD i Mat.zero).entry r c = 1 := by
  intro szs off i r c hi
  rw [projMats_getD tot szs off i hi, cooFromInd_range_entry]
  by_cases h : c < szs.getD i 0 ∧ (off + (szs.take i).sum) + c = r
  · right; rw [if_pos h]
  · left; rw [if_neg h]

/-- Every row in the covered band is hit by exactly one unit entry across
all blocks combined. -/
lemma projMats_cover (tot : ℕ) :
    ∀ (szs : List ℕ) (off r : ℕ), off ≤ r → r < off + szs.sum →
      ∃! p : ℕ × ℕ, p.1 < szs.length ∧
        ((projMats tot szs off).getD p.1 Mat.zero).entry r p.2 ≠ 0 := by
  intro szs
  induction szs with
  | nil =>
    intro off r h1 h2
    simp only [List.sum_nil] at h2
    omega
  | cons sz szs' ih =>
    intro off r h1 h2
    have hhead : ∀ c, ((projMats tot (sz :: szs') off).getD 0 Mat.zero).entry r c =
        if c < sz ∧ off + c = r then 1 else 0 := by
      intro c
      show (cooFromInd tot ((List.range sz).map (fun j => off + j))).entry r c = _
      exact cooFromInd_range_entry tot off sz r c
    by_cases hr : r < off + sz
    · refine ⟨(0, r - off), ⟨by simp, ?_⟩, ?_⟩
      · rw [hhead]
        rw [if_pos ⟨by omega, by omega⟩]
        exact one_ne_zero
      · rintro ⟨i, c⟩ ⟨hi, hent⟩
        match i with
        | 0 =>
          rw [hhead] at hent
          have hcond : c < sz ∧ off + c = r := by
            by_contra hcon
            rw [if_neg hcon] at hent
            exact hent rfl
          have : c = r - off := by omega
          rw [this]
        | i' + 1 =>
          exfalso
          have h3 : ((projMats tot (sz :: szs') off).getD (i' + 1) Mat.zero) =
              (projMats tot szs' (off + sz)).getD i' Mat.zero := rfl
          rw [h3] at hent
          have := projMats_entry_range tot szs' (off + sz) i' r c (by simpa using hi) hent
          omega
    · obtain ⟨⟨i, c⟩, ⟨hi, hent⟩, huniq⟩ := ih (off + sz) r (by omega)
        (by simp only [List.sum_cons] at h2; omega)
      refine ⟨(i + 1, c), ⟨by simp only [List.length_cons]; omega, hent⟩, ?_⟩
      rintro ⟨i', c'⟩ ⟨hi', hent'⟩
      match i' with
      | 0 =>
        exfalso
        rw [hhead] at hent'
        have hcond : c' < sz ∧ off + c' = r := by
          by_contra hcon
          rw [if_neg hcon] at hent'
          exact hent' rfl
        omega
      | i'' + 1 =>
        have h4 := huniq (i'', c') ⟨by simpa using hi', hent'⟩
        have h5 : i'' = i ∧ c' = c := by
          constructor
          · exact congrArg Prod.fst h4
          · exact congrArg Prod.snd h4
        rw [Prod.mk.injEq]
        exact ⟨by omega, h5.2⟩

instance : Inhabited Grid := ⟨⟨0, 0, 0, [], []⟩⟩

lemma map_mul_sum (gs : List Grid) (f : Grid → ℕ) (nd : ℕ) :
    (gs.map (fun g => f g * nd)).sum = (gs.map f).sum * nd := by
  induction gs with
  | nil => simp
  | cons g gs' ih => simp [ih, Nat.add_mul]

lemma getD_map_grid (gs : List Grid) (f : Grid → ℕ) (i : ℕ) (h : i < gs.length) :
    (gs.map f).getD i 0 = f (gs.getD i default) := by
  rw [List.getD_eq_getElem _ _ (by simpa using h), List.getD_eq_getElem _ _ h]
  simp

/-- C1: for every well-formed ordered grid sequence and block size
`nd ≥ 1`, `_subgrid_projections` succeeds and its per-grid cell embeddings
jointly cover the global cell range exactly once — every global row below
the declared total `sum(num_cells) * nd` holds exactly one nonzero entry
across all grids' embeddings combined, all entries are 0 or 1, and no entry
lies at or beyond the declared total — and likewise for the face embeddings
with total `sum(num_faces) * nd`, where a grid of dimension 0 contributes no
face columns at all (its face block has zero columns and the face offset is
unchanged). -/
theorem subgrid_projections_partition (grids : List Grid) (nd : ℕ)
    (hnd : 0 < nd) (hg : GridsOK grids) :
    ∃ cps fps, _subgrid_projections grids nd = .ok (cps, fps) ∧
      cps.length = grids.length ∧ fps.length = grids.length ∧
      (∀ r, r < (grids.map (fun g => g.num_cells)).sum * nd →
        ∃! p : ℕ × ℕ, p.1 < cps.length ∧ (cps.getD p.1 Mat.zero).entry r p.2 ≠ 0) ∧
      (∀ i r c, (cps.getD i Mat.zero).entry r c = 0 ∨
        (cps.getD i Mat.zero).entry r c = 1) ∧
      (∀ i r c, (grids.map (fun g => g.num_cells)).sum * nd ≤ r →
        (cps.getD i Mat.zero).entry r c = 0) ∧
      (∀ r, r < (grids.map (fun g => g.num_faces)).sum * nd →
        ∃! p : ℕ × ℕ, p.1 < fps.length ∧ (fps.getD p.1 Mat.zero).entry r p.2 ≠ 0) ∧
      (∀ i r c, (fps.getD i Mat.zero).entry r c = 0 ∨
        (fps.getD i Mat.zero).entry r c = 1) ∧
      (∀ i r c, (grids.map (fun g => g.num_faces)).sum * nd ≤ r →
        (fps.getD i Mat.zero).entry r c = 0) ∧
      (∀ i, i < grids.length → (grids.getD i default).dim = 0 →
        (fps.getD i Mat.zero).cols = 0) := by
  have heq : _subgrid_projections grids nd =
      Except.ok (projMats ((grids.map (fun g => g.num_cells)).sum * nd)
          (grids.map (fun g => g.num_cells * nd)) 0,
        projMats ((grids.map (fun g => g.num_faces)).sum * nd)
          (grids.map (fun g => g.num_faces * nd)) 0) :=
    subgridLoop_eq nd ((grids.map (fun g => g.num_faces)).sum * nd)
      ((grids.map (fun g => g.num_cells)).sum * nd) hnd grids 0 0 hg
  refine ⟨projMats ((grids.map (fun g => g.num_cells)).sum * nd)
      (grids.map (fun g => g.num_cells * nd)) 0,
    projMats ((grids.map (fun g => g.num_faces)).sum * nd)
      (grids.map (fun g => g.num_faces * nd)) 0, heq, ?_, ?_, ?_, ?_, ?_, ?_, ?_, ?_, ?_⟩
  · rw [projMats_length]; simp
  · rw [projMats_length]; simp
  · intro r hr
    rw [← map_mul_sum grids (fun g => g.num_cells) nd] at hr
    have := projMats_cover ((grids.map (fun g => g.num_cells)).sum * nd)
      (grids.map (fun g => g.num_cells * nd)) 0 r (Nat.zero_le r) (by omega)
    obtain ⟨p, ⟨hp1, hp2⟩, huniq⟩ := this
    refine ⟨p, ⟨by rw [projMats_length]; simpa using hp1, hp2⟩, ?_⟩
    intro q ⟨hq1, hq2⟩
    exact huniq q ⟨by rw [projMats_length] at hq1; simpa using hq1, hq2⟩
  · intro i r c
    by_cases hi : i < (grids.map (fun g => g.num_cells * nd)).length
    · exact projMats_entry01 _ _ 0 i r c hi
    · left
      rw [List.getD_eq_default _ _ (by rw [projMats_length]; omega)]
      rfl
  · intro i r c hr
    rw [← map_mul_sum grids (fun g => g.num_cells) nd] at hr
    by_cases hi : i < (grids.map (fun g => g.num_cells * nd)).length
    · by_contra hne
      have := projMats_entry_range _ _ 0 i r c hi hne
      omega
    · rw [List.getD_eq_default _ _ (by rw [projMats_length]; omega)]
      rfl
  · intro r hr
    rw [← map_mul_sum grids (fun g => g.num_faces) nd] at hr
    have := projMats_cover ((grids.map (fun g => g.num_faces)).sum * nd)
      (grids.map (fun g => g.num_faces * nd)) 0 r (Nat.zero_le r) (by omega)
    obtain ⟨p, ⟨hp1, hp2⟩, huniq⟩ := this
    refine ⟨p, ⟨by rw [projMats_length]; simpa using hp1, hp2⟩, ?_⟩
    intro q ⟨hq1, hq2⟩
    exact huniq q ⟨by rw [projMats_length] at hq1; simpa using hq1, hq2⟩
  · intro i r c
    by_cases hi : i < (grids.map (fun g => g.num_faces * nd)).length
    · exact projMats_entry01 _ _ 0 i r c hi
    · left
      rw [List.getD_eq_default _ _ (by rw [projMats_length]; omega)]
      rfl
  · intro i r c hr
    rw [← map_mul_sum grids (fun g => g.num_faces) nd] at hr
    by_cases hi : i < (grids.map (fun g => g.num_faces * nd)).length
    · by_contra hne
      have := projMats_entry_range _ _ 0 i r c hi hne
      omega
    · rw [List.getD_eq_default _ _ (by rw [projMats_length]; omega)]
      rfl
  · intro i hi hdim
    have hi' : i < (grids.map (fun g => g.num_faces * nd)).length := by simpa using hi
    have h0 : (grids.getD i default).num_faces = 0 := by
      have hmem : grids.getD i default ∈ grids := by
        rw [List.getD_eq_getElem _ _ hi]
        exact List.getElem_mem hi
      exact (hg _ hmem).2.2 hdim
    rw [projMats_getD _ _ 0 i hi']
    show ((List.range ((grids.map (fun g => g.num_faces * nd)).getD i 0)).map _).length = 0
    rw [List.length_map, List.length_range, getD_map_grid grids _ i hi]
    show (grids.getD i default).num_faces * nd = 0
    rw [h0, Nat.zero_mul]

/-- A 1d grid with 2 cells and 3 faces. -/
def gridA : Grid := ⟨1, 2, 3, [2], []⟩

/-- A point grid (dimension 0): one cell, no faces. -/
def gridB : Grid := ⟨0, 1, 0, [], []⟩

/-- Witness for C1: the sequence `[gridA, gridB]` with block size 2. -/
theorem subgrid_projections_partition_witness :
    ∃ cps fps, _subgrid_projections [gridA, gridB] 2 = .ok (cps, fps) ∧
      cps.length = ([gridA, gridB] : List Grid).length ∧
      fps.length = ([gridA, gridB] : List Grid).length ∧
      (∀ r, r < (([gridA, gridB] : List Grid).map (fun g => g.num_cells)).sum * 2 →
        ∃! p : ℕ × ℕ, p.1 < cps.length ∧ (cps.getD p.1 Mat.zero).entry r p.2 ≠ 0) ∧
      (∀ i r c, (cps.getD i Mat.zero).entry r c = 0 ∨
        (cps.getD i Mat.zero).entry r c = 1) ∧
      (∀ i r c, (([gridA, gridB] : List Grid).map (fun g => g.num_cells)).sum * 2 ≤ r →
        (cps.getD i Mat.zero).entry r c = 0) ∧
      (∀ r, r < (([gridA, gridB] : List Grid).map (fun g => g.num_faces)).sum * 2 →
        ∃! p : ℕ × ℕ, p.1 < fps.length ∧ (fps.getD p.1 Mat.zero).entry r p.2 ≠ 0) ∧
      (∀ i r c, (fps.getD i Mat.zero).entry r c = 0 ∨
        (fps.getD i Mat.zero).entry r c = 1) ∧
      (∀ i r c, (([gridA, gridB] : List Grid).map (fun g => g.num_faces)).sum * 2 ≤ r →
        (fps.getD i Mat.zero).entry r c = 0) ∧
      (∀ i, i < ([gridA, gridB] : List Grid).length →
        (([gridA, gridB] : List Grid).getD i default).dim = 0 →
        (fps.getD i Mat.zero).cols = 0) :=
  subgrid_projections_partition [gridA, gridB] 2 (by decide)
    (by unfold GridsOK; decide)

/-! ## `SubdomainProjections` (grid_operators.py lines 23-158) -/

/-- The `SubdomainProjections` object: the ordered grid list, the block size
and the two projection dictionaries (modelled as lists aligned with the grid
order). -/
structure SubdomainProjections where
  grids : List Grid
  nd : ℕ
  cell_projection : List Mat
  face_projection : List Mat

/-- `SubdomainProjections.__init__` (lines 32-62): store the grid order and
the output of `_subgrid_projections`.  `_grid_list` on an explicitly given
grid list returns it unchanged (line 560-568). -/
def SubdomainProjections.init (grids : List Grid) (nd : ℕ) :
    Except PyError SubdomainProjections :=
  match _subgrid_projections grids nd with
  | .error e => .error e
  | .ok cf => .ok ⟨grids, nd, cf.1, cf.2⟩

/-- `cell_restriction` for a single grid (lines 76-77): the transpose of the
grid's cell embedding; unknown grids raise `KeyError` (dict access). -/
def SubdomainProjections.cell_restriction (sp : SubdomainProjections) (g : Grid) :
    Except PyError Mat :=
  match sp.grids.findIdx? (fun g' => g' == g) with
  | some i => .ok ((sp.cell_projection.getD i Mat.zero).transpose)
  | none => .error .keyError

/-- `cell_prolongation` for a single grid (lines 99-100): the embedding
itself. -/
def SubdomainProjections.cell_prolongation (sp : SubdomainProjections) (g : Grid) :
    Except PyError Mat :=
  match sp.grids.findIdx? (fun g' => g' == g) with
  | some i => .ok (sp.cell_projection.getD i Mat.zero)
  | none => .error .keyError

/-- `face_restriction` for a single grid (lines 121-122). -/
def SubdomainProjections.face_restriction (sp : SubdomainProjections) (g : Grid) :
    Except PyError Mat :=
  match sp.grids.findIdx? (fun g' => g' == g) with
  | some i => .ok ((sp.face_projection.getD i Mat.zero).transpose)
  | none => .error .keyError

/-- `face_prolongation` for a single grid (lines 143-144). -/
def SubdomainProjections.face_prolongation (sp : SubdomainProjections) (g : Grid) :
    Except PyError Mat :=
  match sp.grids.findIdx? (fun g' => g' == g) with
  | some i => .ok (sp.face_projection.getD i Mat.zero)
  | none => .error .keyError

/-- `cell_restriction` on a list of grids (lines 78-83): vertical stack of
the transposed embeddings. -/
def SubdomainProjections.cell_restriction_list (sp : SubdomainProjections)
    (gs : List Grid) : Except PyError Mat :=
  match gs.mapM (fun g => sp.cell_restriction g) with
  | .error e => .error e
  | .ok ms => .ok (vstack ms)

/-- `cell_prolongation` on a list of grids (lines 101-105): horizontal
stack. -/
def SubdomainProjections.cell_prolongation_list (sp : SubdomainProjections)
    (gs : List Grid) : Except PyError Mat :=
  match gs.mapM (fun g => sp.cell_prolongation g) with
  | .error e => .error e
  | .ok ms => .ok (hstack ms)

/-- `face_restriction` on a list of grids (lines 123-127). -/
def SubdomainProjections.face_restriction_list (sp : SubdomainProjections)
    (gs : List Grid) : Except PyError Mat :=
  match gs.mapM (fun g => sp.face_restriction g) with
  | .error e => .error e
  | .ok ms => .ok (vstack ms)

/-- `face_prolongation` on a list of grids (lines 145-149). -/
def SubdomainProjections.face_prolongation_list (sp : SubdomainProjections)
    (gs : List Grid) : Except PyError Mat :=
  match gs.mapM (fun g => sp.face_prolongation g) with
  | .error e => .error e
  | .ok ms => .ok (hstack ms)

lemma findIdx_mem (gs : List Grid) (g : Grid) (h : g ∈ gs) :
    ∃ i, gs.findIdx? (fun g' => g' == g) = some i ∧ i < gs.length ∧
      gs.getD i default = g := by
  induction gs with
  | nil => simp at h
  | cons a as ih =>
    by_cases ha : (a == g) = true
    · refine ⟨0, ?_, by simp, by rw [List.getD_cons_zero]; exact beq_iff_eq.mp ha⟩
      rw [List.findIdx?_cons, if_pos ha]
    · have h' : g ∈ as := by
        rcases List.mem_cons.mp h with rfl | h'
        · exact absurd (by simp) ha
        · exact h'
      obtain ⟨i, hfi, hlen, hgd⟩ := ih h'
      refine ⟨i + 1, ?_, by simp only [List.length_cons]; omega, by simpa using hgd⟩
      rw [List.findIdx?_cons, if_neg (by simpa using ha), List.findIdx?_succ, hfi]
      rfl

lemma take_sum_getD_le :
    ∀ (szs : List ℕ) (i : ℕ), i < szs.length →
      (szs.take i).sum + szs.getD i 0 ≤ szs.sum := by
  intro szs
  induction szs with
  | nil => intro i hi; simp at hi
  | cons sz szs' ih =>
    intro i hi
    match i with
    | 0 => simp
    | i' + 1 =>
      simp only [List.take_succ_cons, List.sum_cons, List.getD_cons_succ]
      have := ih i' (by simpa using hi)
      omega

/-- The restriction (transpose) composed with the prolongation of one block
is the identity on the block's local numbering. -/
lemma cooRange_transpose_mul_self (tot off sz : ℕ) (hbound : off + sz ≤ tot) :
    ∀ j k, j < sz → k < sz →
      (matMul (Mat.transpose (cooFromInd tot ((List.range sz).map (fun j => off + j))))
        (cooFromInd tot ((List.range sz).map (fun j => off + j)))).entry j k =
      if j = k then 1 else 0 := by
  intro j k hj hk
  show (∑ x ∈ Finset.range tot,
    (cooFromInd tot ((List.range sz).map (fun j => off + j))).entry x j *
      (cooFromInd tot ((List.range sz).map (fun j => off + j))).entry x k) = _
  by_cases hjk : j = k
  · subst hjk
    have hterm : ∀ x, (cooFromInd tot ((List.range sz).map (fun j => off + j))).entry x j *
        (cooFromInd tot ((List.range sz).map (fun j => off + j))).entry x j =
        if x = off + j then 1 else 0 := by
      intro x
      rw [cooFromInd_range_entry]
      by_cases hx : x = off + j
      · rw [if_pos ⟨hj, by omega⟩, if_pos hx]
        ring
      · rw [if_neg (by omega), if_neg hx]
        ring
    rw [Finset.sum_congr rfl (fun x _ => hterm x)]
    rw [Finset.sum_ite_eq' (Finset.range tot) (off + j) (fun _ => (1 : ℤ))]
    rw [if_pos (Finset.mem_range.mpr (by omega)), if_pos rfl]
  · rw [if_neg hjk]
    apply Finset.sum_eq_zero
    intro x _
    rw [cooFromInd_range_entry, cooFromInd_range_entry]
    by_cases h1 : j < sz ∧ off + j = x
    · rw [if_pos h1, if_neg (show ¬(k < sz ∧ off + k = x) from by
        rintro ⟨-, h2⟩
        exact hjk (by omega))]
      ring
    · rw [if_neg h1]
      ring

lemma cell_restriction_eq (grids : List Grid) (nd : ℕ) (cp fp : List Mat)
    (g : Grid) (i : ℕ) (hfi : grids.findIdx? (fun g' => g' == g) = some i) :
    SubdomainProjections.cell_restriction ⟨grids, nd, cp, fp⟩ g =
      .ok ((cp.getD i Mat.zero).transpose) := by
  show (match grids.findIdx? (fun g' => g' == g) with
    | some i => Except.ok ((cp.getD i Mat.zero).transpose)
    | none => Except.error PyError.keyError) = _
  rw [hfi]

lemma cell_prolongation_eq (grids : List Grid) (nd : ℕ) (cp fp : List Mat)
    (g : Grid) (i : ℕ) (hfi : grids.findIdx? (fun g' => g' == g) = some i) :
    SubdomainProjections.cell_prolongation ⟨grids, nd, cp, fp⟩ g =
      .ok (cp.getD i Mat.zero) := by
  show (match grids.findIdx? (fun g' => g' == g) with
    | some i => Except.ok (cp.getD i Mat.zero)
    | none => Except.error PyError.keyError) = _
  rw [hfi]

/-- C2: for every well-formed ordered grid sequence, block size `nd ≥ 1` and
grid `g` of the sequence, `cell_restriction(g) * cell_prolongation(g)` is the
identity on `g`'s local cell numbering (size `num_cells * nd`). -/
theorem cell_restriction_prolongation_identity (grids : List Grid) (nd : ℕ)
    (hnd : 0 < nd) (hg : GridsOK grids) (g : Grid) (hmem : g ∈ grids) :
    ∃ sp R P, SubdomainProjections.init grids nd = .ok sp ∧
      sp.cell_restriction g = .ok R ∧ sp.cell_prolongation g = .ok P ∧
      (matMul R P).rows = g.num_cells * nd ∧
      (matMul R P).cols = g.num_cells * nd ∧
      (∀ j k, j < g.num_cells * nd → k < g.num_cells * nd →
        (matMul R P).entry j k = if j = k then 1 else 0) := by
  have heq : _subgrid_projections grids nd =
      Except.ok (projMats ((grids.map (fun g => g.num_cells)).sum * nd)
          (grids.map (fun g => g.num_cells * nd)) 0,
        projMats ((grids.map (fun g => g.num_faces)).sum * nd)
          (grids.map (fun g => g.num_faces * nd)) 0) :=
    subgridLoop_eq nd _ _ hnd grids 0 0 hg
  obtain ⟨i, hfi, hilen, hgd⟩ := findIdx_mem grids g hmem
  have hinit : SubdomainProjections.init grids nd = .ok
      ⟨grids, nd, projMats ((grids.map (fun g => g.num_cells)).sum * nd)
          (grids.map (fun g => g.num_cells * nd)) 0,
        projMats ((grids.map (fun g => g.num_faces)).sum * nd)
          (grids.map (fun g => g.num_faces * nd)) 0⟩ := by
    unfold SubdomainProjections.init
    rw [heq]
  have hilen' : i < (grids.map (fun g => g.num_cells * nd)).length := by
    simpa using hilen
  have hMi := projMats_getD ((grids.map (fun g => g.num_cells)).sum * nd)
    (grids.map (fun g => g.num_cells * nd)) 0 i hilen'
  have hsz : (grids.map (fun g => g.num_cells * nd)).getD i 0 = g.num_cells * nd := by
    rw [getD_map_grid grids _ i hilen, hgd]
  have hbound : (0 + ((grids.map (fun g => g.num_cells * nd)).take i).sum) +
      g.num_cells * nd ≤ (grids.map (fun g => g.num_cells)).sum * nd := by
    have h1 := take_sum_getD_le (grids.map (fun g => g.num_cells * nd)) i hilen'
    rw [hsz] at h1
    have h2 : (grids.map (fun g => g.num_cells * nd)).sum =
        (grids.map (fun g => g.num_cells)).sum * nd :=
      map_mul_sum grids (fun g => g.num_cells) nd
    omega
  refine ⟨_, _, _, hinit,
    cell_restriction_eq grids nd _ _ g i hfi,
    cell_prolongation_eq grids nd _ _ g i hfi, ?_, ?_, ?_⟩
  · rw [hMi]
    show ((List.range ((grids.map (fun g => g.num_cells * nd)).getD i 0)).map _).length =
      g.num_cells * nd
    rw [List.length_map, List.length_range, hsz]
  · rw [hMi]
    show ((List.range ((grids.map (fun g => g.num_cells * nd)).getD i 0)).map _).length =
      g.num_cells * nd
    rw [List.length_map, List.length_range, hsz]
  · intro j k hj hk
    rw [hMi, hsz]
    exact cooRange_transpose_mul_self _ _ _ hbound j k hj hk

/-- Witness for C2: grid `gridA` inside the sequence `[gridA, gridB]` with
block size 2. -/
theorem cell_restriction_prolongation_identity_witness :
    ∃ sp R P, SubdomainProjections.init [gridA, gridB] 2 = .ok sp ∧
      sp.cell_restriction gridA = .ok R ∧ sp.cell_prolongation gridA = .ok P ∧
      (matMul R P).rows = gridA.num_cells * 2 ∧
      (matMul R P).cols = gridA.num_cells * 2 ∧
      (∀ j k, j < gridA.num_cells * 2 → k < gridA.num_cells * 2 →
        (matMul R P).entry j k = if j = k then 1 else 0) :=
  cell_restriction_prolongation_identity [gridA, gridB] 2 (by decide)
    (by unfold GridsOK; decide) gridA (by decide)

/-! ## `MortarProjections` (grid_operators.py lines 161-320) -/

/-- An interface (mortar) grid, consumed read-only: its dimension and its
eight local projection operators (to/from primary/secondary ×
extensive/intensive, each a function of the block size `nd`) plus the
two-sided sign operator. -/
structure MortarGrid where
  dim : ℕ
  num_cells : ℕ
  mortar_to_primary_int : ℕ → Mat
  mortar_to_primary_avg : ℕ → Mat
  primary_to_mortar_int : ℕ → Mat
  primary_to_mortar_avg : ℕ → Mat
  mortar_to_secondary_int : ℕ → Mat
  mortar_to_secondary_avg : ℕ → Mat
  secondary_to_mortar_int : ℕ → Mat
  secondary_to_mortar_avg : ℕ → Mat
  sign_of_mortar_sides : ℕ → Mat

/-- The eight globally-embedded blocks one interface contributes
(lines 260-287). -/
structure MortarBlocks where
  m2p_int : Mat
  m2p_avg : Mat
  p2m_int : Mat
  p2m_avg : Mat
  m2s_int : Mat
  m2s_avg : Mat
  s2m_int : Mat
  s2m_avg : Mat

/-- The `MortarProjections` object: the eight stacked global operators plus
the block-diagonal sign operator, all assigned only after the edge loop
completes (lines 292-320). -/
structure MortarProjections where
  mortar_to_primary_int : Mat
  mortar_to_primary_avg : Mat
  primary_to_mortar_int : Mat
  primary_to_mortar_avg : Mat
  mortar_to_secondary_int : Mat
  mortar_to_secondary_avg : Mat
  secondary_to_mortar_int : Mat
  secondary_to_mortar_avg : Mat
  sign_of_mortar_sides : Mat

/-- The edge loop of `MortarProjections.__init__` (lines 249-287): for each
(primary, secondary) pair the dimension compatibility check of lines 252-257
runs FIRST — `g_primary.dim != mg.dim + 1 or g_secondary.dim != mg.dim`
raises `NotImplementedError("Non-standard interface.")` — and only then are
the eight per-interface blocks built from the face projection of the primary
and the cell projection of the secondary (dictionary lookups; `KeyError` for
grids outside the sequence). -/
def mortarLoop (grids : List Grid) (cellP faceP : List Mat) (nd : ℕ)
    (edgeProps : Grid × Grid → MortarGrid) :
    List (Grid × Grid) → Except PyError (List MortarBlocks)
  | [] => .ok []
  | e :: es =>
    let g_primary := e.1
    let g_secondary := e.2
    let mg := edgeProps e
    if ¬(g_primary.dim = mg.dim + 1 ∧ g_secondary.dim = mg.dim) then
      .error .notImplementedError
    else
      match grids.findIdx? (fun g' => g' == g_primary) with
      | none => .error .keyError
      | some ip =>
        match grids.findIdx? (fun g' => g' == g_secondary) with
        | none => .error .keyError
        | some isec =>
          let fpp := faceP.getD ip Mat.zero
          let cps := cellP.getD isec Mat.zero
          match mortarLoop grids cellP faceP nd edgeProps es with
          | .error e' => .error e'
          | .ok rest =>
            .ok ({ m2p_int := matMul fpp (mg.mortar_to_primary_int nd)
                   m2p_avg := matMul fpp (mg.mortar_to_primary_avg nd)
                   p2m_int := matMul (mg.primary_to_mortar_int nd) fpp.transpose
                   p2m_avg := matMul (mg.primary_to_mortar_avg nd) fpp.transpose
                   m2s_int := matMul cps (mg.mortar_to_secondary_int nd)
                   m2s_avg := matMul cps (mg.mortar_to_secondary_avg nd)
                   s2m_int := matMul (mg.secondary_to_mortar_int nd) cps.transpose
                   s2m_avg := matMul (mg.secondary_to_mortar_avg nd) cps.transpose } :: rest)

/-- `MortarProjections.__init__` (lines 195-320): build the subgrid
projections, run the edge loop (any exception escapes before a single
attribute is assigned), then stack the mortar-to-grid blocks horizontally,
the grid-to-mortar blocks vertically, and the per-interface sign operators
block-diagonally. -/
def MortarProjections.init (grids : List Grid) (edges : List (Grid × Grid))
    (edgeProps : Grid × Grid → MortarGrid) (nd : ℕ) :
    Except PyError MortarProjections :=
  match _subgrid_projections grids nd with
  | .error e => .error e
  | .ok cf =>
    match mortarLoop grids cf.1 cf.2 nd edgeProps edges with
    | .error e => .error e
    | .ok blocks =>
      .ok { mortar_to_primary_int := hstack (blocks.map (fun b => b.m2p_int))
            mortar_to_primary_avg := hstack (blocks.map (fun b => b.m2p_avg))
            mortar_to_secondary_int := hstack (blocks.map (fun b => b.m2s_int))
            mortar_to_secondary_avg := hstack (blocks.map (fun b => b.m2s_avg))
            primary_to_mortar_int := vstack (blocks.map (fun b => b.p2m_int))
            primary_to_mortar_avg := vstack (blocks.map (fun b => b.p2m_avg))
            secondary_to_mortar_int := vstack (blocks.map (fun b => b.s2m_int))
            secondary_to_mortar_avg := vstack (blocks.map (fun b => b.s2m_avg))
            sign_of_mortar_sides :=
              blockDiag (edges.map (fun e => (edgeProps e).sign_of_mortar_sides nd)) }

/-- The loop raises `NotImplementedError` exactly when some edge violates the
dimension precondition (all edge grids being in the sequence), and succeeds
when every edge conforms. -/
lemma mortarLoop_cases (grids : List Grid) (cellP faceP : List Mat) (nd : ℕ)
    (eprops : Grid × Grid → MortarGrid) :
    ∀ edges : List (Grid × Grid), (∀ e ∈ edges, e.1 ∈ grids ∧ e.2 ∈ grids) →
      ((∃ e ∈ edges, ¬(e.1.dim = (eprops e).dim + 1 ∧ e.2.dim = (eprops e).dim)) →
        mortarLoop grids cellP faceP nd eprops edges = .error .notImplementedError) ∧
      ((∀ e ∈ edges, e.1.dim = (eprops e).dim + 1 ∧ e.2.dim = (eprops e).dim) →
        ∃ bs, mortarLoop grids cellP faceP nd eprops edges = .ok bs) := by
  intro edges
  induction edges with
  | nil =>
    intro _
    constructor
    · rintro ⟨e, he, -⟩
      simp at he
    · intro _
      exact ⟨[], rfl⟩
  | cons e es ih =>
    intro hpres
    obtain ⟨hp1, hp2⟩ := hpres e (by simp)
    obtain ⟨ih1, ih2⟩ := ih (fun e' he' => hpres e' (List.mem_cons_of_mem _ he'))
    obtain ⟨ip, hip, -, -⟩ := findIdx_mem grids e.1 hp1
    obtain ⟨isec, hisec, -, -⟩ := findIdx_mem grids e.2 hp2
    constructor
    · rintro ⟨e', he', hbad⟩
      by_cases hce : e.1.dim = (eprops e).dim + 1 ∧ e.2.dim = (eprops e).dim
      · have he's : e' ∈ es := by
          rcases List.mem_cons.mp he' with rfl | h
          · exact absurd hce hbad
          · exact h
        show (if ¬(e.1.dim = (eprops e).dim + 1 ∧ e.2.dim = (eprops e).dim) then
            Except.error PyError.notImplementedError
          else _) = _
        rw [if_neg (by simpa using hce)]
        show (match grids.findIdx? (fun g' => g' == e.1) with
          | none => (Except.error PyError.keyError : Except PyError (List MortarBlocks))
          | some ip => _) = _
        rw [hip]
        show (match grids.findIdx? (fun g' => g' == e.2) with
          | none => (Except.error PyError.keyError : Except PyError (List MortarBlocks))
          | some isec => _) = _
        rw [hisec]
        rw [ih1 ⟨e', he's, hbad⟩]
      · show (if ¬(e.1.dim = (eprops e).dim + 1 ∧ e.2.dim = (eprops e).dim) then
            Except.error PyError.notImplementedError
          else _) = _
        rw [if_pos hce]
    · intro hall
      have hce := hall e (by simp)
      obtain ⟨bs, hbs⟩ := ih2 (fun e' he' => hall e' (List.mem_cons_of_mem _ he'))
      refine ⟨{ m2p_int := matMul (faceP.getD ip Mat.zero) ((eprops e).mortar_to_primary_int nd)
                m2p_avg := matMul (faceP.getD ip Mat.zero) ((eprops e).mortar_to_primary_avg nd)
                p2m_int := matMul ((eprops e).primary_to_mortar_int nd)
                  (faceP.getD ip Mat.zero).transpose
                p2m_avg := matMul ((eprops e).primary_to_mortar_avg nd)
                  (faceP.getD ip Mat.zero).transpose
                m2s_int := matMul (cellP.getD isec Mat.zero) ((eprops e).mortar_to_secondary_int nd)
                m2s_avg := matMul (cellP.getD isec Mat.zero) ((eprops e).mortar_to_secondary_avg nd)
                s2m_int := matMul ((eprops e).secondary_to_mortar_int nd)
                  (cellP.getD isec Mat.zero).transpose
                s2m_avg := matMul ((eprops e).secondary_to_mortar_avg nd)
                  (cellP.getD isec Mat.zero).transpose } :: bs, ?_⟩
      show (if ¬(e.1.dim = (eprops e).dim + 1 ∧ e.2.dim = (eprops e).dim) then
          Except.error PyError.notImplementedError
        else _) = _
      rw [if_neg (by simpa using hce)]
      show (match grids.findIdx? (fun g' => g' == e.1) with
        | none => (Except.error PyError.keyError : Except PyError (List MortarBlocks))
        | some ip => _) = _
      rw [hip]
      show (match grids.findIdx? (fun g' => g' == e.2) with
        | none => (Except.error PyError.keyError : Except PyError (List MortarBlocks))
        | some isec => _) = _
      rw [hisec]
      show (match mortarLoop grids cellP faceP nd eprops es with
        | .error e' => (Except.error e' : Except PyError (List MortarBlocks))
        | .ok rest => Except.ok (_ :: rest)) = _
      rw [hbs]

/-- C3: with all edge grids drawn from the (well-formed) grid sequence, the
`MortarProjections` constructor raises `NotImplementedError` whenever some
interface triple violates the dimension precondition (primary one above the
mortar, secondary equal to it) — exposing no partially built object, since
the `Except` carries no attributes — and for fully conforming triples it
raises no such error and returns the constructed projection object. -/
theorem mortar_projections_dim_check (grids : List Grid)
    (edges : List (Grid × Grid)) (eprops : Grid × Grid → MortarGrid) (nd : ℕ)
    (hnd : 0 < nd) (hg : GridsOK grids)
    (hpresent : ∀ e ∈ edges, e.1 ∈ grids ∧ e.2 ∈ grids) :
    ((∃ e ∈ edges, ¬(e.1.dim = (eprops e).dim + 1 ∧ e.2.dim = (eprops e).dim)) →
      MortarProjections.init grids edges eprops nd = .error .notImplementedError) ∧
    ((∀ e ∈ edges, e.1.dim = (eprops e).dim + 1 ∧ e.2.dim = (eprops e).dim) →
      ∃ mp, MortarProjections.init grids edges eprops nd = .ok mp) := by
  have heq : _subgrid_projections grids nd =
      Except.ok (projMats ((grids.map (fun g => g.num_cells)).sum * nd)
          (grids.map (fun g => g.num_cells * nd)) 0,
        projMats ((grids.map (fun g => g.num_faces)).sum * nd)
          (grids.map (fun g => g.num_faces * nd)) 0) :=
    subgridLoop_eq nd _ _ hnd grids 0 0 hg
  obtain ⟨hl1, hl2⟩ := mortarLoop_cases grids
    (projMats ((grids.map (fun g => g.num_cells)).sum * nd)
      (grids.map (fun g => g.num_cells * nd)) 0)
    (projMats ((grids.map (fun g => g.num_faces)).sum * nd)
      (grids.map (fun g => g.num_faces * nd)) 0)
    nd eprops edges hpresent
  constructor
  · intro hbad
    unfold MortarProjections.init
    rw [heq]
    show (match mortarLoop grids
        (projMats ((grids.map (fun g => g.num_cells)).sum * nd)
          (grids.map (fun g => g.num_cells * nd)) 0)
        (projMats ((grids.map (fun g => g.num_faces)).sum * nd)
          (grids.map (fun g => g.num_faces * nd)) 0)
        nd eprops edges with
      | Except.error e => (Except.error e : Except PyError MortarProjections)
      | Except.ok blocks => Except.ok _) = _
    rw [hl1 hbad]
  · intro hok
    obtain ⟨bs, hbs⟩ := hl2 hok
    unfold MortarProjections.init
    rw [heq]
    show ∃ mp, (match mortarLoop grids
        (projMats ((grids.map (fun g => g.num_cells)).sum * nd)
          (grids.map (fun g => g.num_cells * nd)) 0)
        (projMats ((grids.map (fun g => g.num_faces)).sum * nd)
          (grids.map (fun g => g.num_faces * nd)) 0)
        nd eprops edges with
      | Except.error e => (Except.error e : Except PyError MortarProjections)
      | Except.ok blocks =>
        Except.ok { mortar_to_primary_int := hstack (blocks.map (fun b : MortarBlocks => b.m2p_int))
                    mortar_to_primary_avg := hstack (blocks.map (fun b : MortarBlocks => b.m2p_avg))
                    mortar_to_secondary_int := hstack (blocks.map (fun b : MortarBlocks => b.m2s_int))
                    mortar_to_secondary_avg := hstack (blocks.map (fun b : MortarBlocks => b.m2s_avg))
                    primary_to_mortar_int := vstack (blocks.map (fun b : MortarBlocks => b.p2m_int))
                    primary_to_mortar_avg := vstack (blocks.map (fun b : MortarBlocks => b.p2m_avg))
                    secondary_to_mortar_int := vstack (blocks.map (fun b : MortarBlocks => b.s2m_int))
                    secondary_to_mortar_avg := vstack (blocks.map (fun b : MortarBlocks => b.s2m_avg))
                    sign_of_mortar_sides := blockDiag
                      (edges.map (fun e => (eprops e).sign_of_mortar_sides nd)) }) = .ok mp
    rw [hbs]
    exact ⟨_, rfl⟩

/-- An interface grid stub of dimension `d` whose local operators are all
the empty matrix; only the dimension matters for the C3 check. -/
def mortarStub (d : ℕ) : MortarGrid :=
  ⟨d, 1, fun _ => Mat.zero, fun _ => Mat.zero, fun _ => Mat.zero, fun _ => Mat.zero,
    fun _ => Mat.zero, fun _ => Mat.zero, fun _ => Mat.zero, fun _ => Mat.zero,
    fun _ => Mat.zero⟩

/-- Witness for C3: the conforming triple (1d primary, 0d mortar, 0d
secondary) constructs, and the non-conforming one (1d mortar under a 1d
primary) raises `NotImplementedError`. -/
theorem mortar_projections_dim_check_witness :
    (∃ mp, MortarProjections.init [gridA, gridB] [(gridA, gridB)]
      (fun _ => mortarStub 0) 2 = .ok mp) ∧
    MortarProjections.init [gridA, gridB] [(gridA, gridB)]
      (fun _ => mortarStub 1) 2 = .error .notImplementedError :=
  ⟨(mortar_projections_dim_check [gridA, gridB] [(gridA, gridB)]
      (fun _ => mortarStub 0) 2 (by decide) (by unfold GridsOK; decide)
      (by decide)).2 (by decide),
   (mortar_projections_dim_check [gridA, gridB] [(gridA, gridB)]
      (fun _ => mortarStub 1) 2 (by decide) (by unfold GridsOK; decide)
      (by decide)).1 (by decide)⟩
